import Mathlib

/-!
# Verification of the SSLQ dataset-preparation caption pipeline

A shallow embedding, over `List Char`, of the pure text-processing core of
`scripts/generate_sslq_captions_lora_public_heavy__texttraining.py` (namespace
`Heavy`) and `image_model_training/dataset_prep_for_lora_training.py`
(namespace `Prep`).  Python strings are modelled as `List Char`; Python
`re` substitutions used by the scripts are all literal-phrase scans with
word boundaries or fixed character-class patterns, and each one is embedded
as an explicit automaton over the character list whose behaviour matches
Python's leftmost, non-overlapping `re.sub`/`finditer` semantics for that
pattern.  Python floats are modelled by `PyFloat` (rationals plus nan/inf),
character case by ASCII `toLowerC`/`toUpperC` (the scripts only configure
ASCII data).
-/

/-- Python strings are modelled as lists of characters. -/
abbrev Str := List Char

/-- Coerce a Lean string literal to the model type. -/
def S (s : String) : Str := s.data

/-- ASCII whitespace recognised by Python's `str.strip` and `\s`
(space, tab, newline, carriage return, vertical tab, form feed). -/
def isSpaceB (c : Char) : Bool :=
  c = ' ' || c = '\t' || c = '\n' || c = '\r' || c = '\x0b' || c = '\x0c'

/-- The sentence-final punctuation used by both scripts: `.`, `!`, `?`. -/
def isPunctB (c : Char) : Bool :=
  c = '.' || c = '!' || c = '?'

/-- ASCII decimal digit. -/
def isDigitB (c : Char) : Bool :=
  '0' ≤ c && c ≤ '9'

/-- Regex word character `\w` (ASCII model): letter, digit or underscore. -/
def isWordB (c : Char) : Bool :=
  ('a' ≤ c && c ≤ 'z') || ('A' ≤ c && c ≤ 'Z') || isDigitB c || c = '_'

/-- ASCII lower-casing of one character (model of Python `str.lower` on the
ASCII data the scripts use). -/
def toLowerC (c : Char) : Char :=
  if 65 ≤ c.toNat ∧ c.toNat ≤ 90 then Char.ofNat (c.toNat + 32) else c

/-- ASCII upper-casing of one character (model of Python `str.upper`). -/
def toUpperC (c : Char) : Char :=
  if 97 ≤ c.toNat ∧ c.toNat ≤ 122 then Char.ofNat (c.toNat - 32) else c

/-- Lower-case a whole string. -/
def lowerS (s : Str) : Str := s.map toLowerC

/-- `s.lstrip()`. -/
def lstrip (s : Str) : Str := s.dropWhile isSpaceB

/-- `s.rstrip()`. -/
def rstrip (s : Str) : Str := (s.reverse.dropWhile isSpaceB).reverse

/-- Python `str.strip()`: drop leading and trailing whitespace. -/
def pyStrip (s : Str) : Str := rstrip (lstrip s)

/-- Is `n` a prefix of `h` (exact characters)? -/
def isPreB : Str → Str → Bool
  | [], _ => true
  | _ :: _, [] => false
  | a :: as, b :: bs => a = b && isPreB as bs

/-- Python's `n in h` substring test: does `n` occur contiguously in `h`? -/
def subB (n : Str) : Str → Bool
  | [] => decide (n = [])
  | c :: cs => isPreB n (c :: cs) || subB n cs

/-- `s.replace("_", " ")`. -/
def replUnderscore (s : Str) : Str :=
  s.map (fun c => if c = '_' then ' ' else c)

/-- `_normalize_phrase_spaces_lower` from both scripts:
`s.strip().replace("_", " ").lower()`. -/
def normSL (s : Str) : Str :=
  lowerS (replUnderscore (pyStrip s))

/-- `_snake_lower` from the Heavy script:
`_normalize_phrase_spaces_lower(s).replace(" ", "_")`. -/
def snakeLower (s : Str) : Str :=
  (normSL s).map (fun c => if c = ' ' then '_' else c)

/-- Automaton for `re.sub(r"\s+", " ", s)`: every maximal whitespace run
becomes one space.  `pend` records whether a run is currently open. -/
def cwGo (pend : Bool) : Str → Str
  | [] => if pend then [' '] else []
  | c :: cs =>
    if isSpaceB c then cwGo true cs
    else if pend then ' ' :: c :: cwGo false cs
    else c :: cwGo false cs

/-- `re.sub(r"\s+", " ", s)`. -/
def collapseWs (s : Str) : Str := cwGo false s

example : collapseWs (S "a \t b  c") = S "a b c" := by decide
example : pyStrip (S "  ab  ") = S "ab" := by decide
example : normSL (S " Stone_Ocean ") = S "stone ocean" := by decide
example : snakeLower (S "Stone Ocean") = S "stone_ocean" := by decide
example : subB (S "old") (S "golden") = true := by decide
example : subB (S "gold ") (S "golden") = false := by decide

/-! ## Python float parsing (for the numeric gates) -/

/-- Value of Python `float(...)`: a rational, or one of the special values
`nan`, `inf`, `-inf` that Python's float parser also accepts. -/
inductive PyFloat
  | num (q : ℚ)
  | nan
  | inf
  | ninf
deriving DecidableEq, Repr

/-- Digits-to-number, most significant first. -/
def digitsVal (l : Str) : ℕ :=
  l.foldl (fun acc c => 10 * acc + (c.toNat - 48)) 0

/-- PEP 515 underscore validation and removal for numeric literals: every
underscore must sit between two digits.  Returns `none` if an underscore is
misplaced. -/
def stripUnders : Str → Option Str
  | [] => some []
  | '_' :: _ => none
  | c :: cs => go c cs >>= fun r => some (c :: r)
where
  /-- `prev` is the previous character (already emitted). -/
  go (prev : Char) : Str → Option Str
    | [] => some []
    | '_' :: cs =>
      match cs with
      | d :: _ => if isDigitB prev && isDigitB d then go '_' cs else none
      | [] => none
    | c :: cs => go c cs >>= fun r => some (c :: r)

/-- Remove the underscores after validation. -/
def dropUnders (s : Str) : Str := s.filter (· ≠ '_')

/-- Parse the mantissa `D+ [. D*] | . D+` of a float literal; returns
`(numerator, power-of-ten denominator exponent, unconsumed rest)`, so the
value is `numerator / 10 ^ exponent`. -/
def parseMantissa (s : Str) : Option (ℕ × ℕ × Str) :=
  let ip := s.takeWhile isDigitB
  let r1 := s.dropWhile isDigitB
  match r1 with
  | '.' :: r2 =>
    let fp := r2.takeWhile isDigitB
    let r3 := r2.dropWhile isDigitB
    if ip = [] ∧ fp = [] then none
    else some (digitsVal ip * 10 ^ fp.length + digitsVal fp, fp.length, r3)
  | _ => if ip = [] then none else some (digitsVal ip, 0, r1)

/-- Parse the optional exponent `e [+|-] D+` and apply it to a mantissa
`(n, d)` standing for `n / 10 ^ d`. -/
def parseExpo (n d : ℕ) : Str → Option (ℕ × ℕ)
  | [] => some (n, d)
  | 'e' :: r =>
    let (neg, r') :=
      match r with
      | '+' :: t => (false, t)
      | '-' :: t => (true, t)
      | t => (false, t)
    let ds := r'.takeWhile isDigitB
    if ds = [] ∨ r'.dropWhile isDigitB ≠ [] then none
    else some (if neg then (n, d + digitsVal ds) else (n * 10 ^ digitsVal ds, d))
  | _ => none

/-- Parse a signless, lower-cased numeric literal (after underscore
removal) into a rational value. -/
def parseNumeric (s : Str) : Option ℚ :=
  parseMantissa s >>= fun (n, d, r) =>
    (parseExpo n d r).map fun (n', d') => mkRat (n' : ℤ) (10 ^ d')

/-- Model of Python `float(x)` on a string: strip whitespace, optional sign,
then `inf`/`infinity`/`nan` (case-insensitive) or a decimal literal with
optional fraction and exponent, PEP 515 underscores allowed between digits.
Returns `none` where Python raises `ValueError`. -/
def pyFloat (s : Str) : Option PyFloat :=
  let t := pyStrip s
  let (neg, body) :=
    match t with
    | '+' :: r => (false, r)
    | '-' :: r => (true, r)
    | r => (false, r)
  let low := lowerS body
  if low = S "inf" ∨ low = S "infinity" then
    some (if neg then PyFloat.ninf else PyFloat.inf)
  else if low = S "nan" then some PyFloat.nan
  else
    match stripUnders low with
    | none => none
    | some u =>
      match parseNumeric (dropUnders u) with
      | none => none
      | some q => some (PyFloat.num (if neg then -q else q))

/-- Python `<` between a parsed float and a rational threshold
(`nan < x` and `inf < x` are false, `-inf < x` is true). -/
def pyLt (a : PyFloat) (b : ℚ) : Bool :=
  match a with
  | PyFloat.num q => decide (q < b)
  | PyFloat.nan => false
  | PyFloat.inf => false
  | PyFloat.ninf => true

example : pyFloat (S " 3.5 ") = some (PyFloat.num (mkRat 7 2)) := by decide
example : pyFloat (S "abc") = none := by decide
example : pyFloat (S "") = none := by decide
example : pyFloat (S "-2") = some (PyFloat.num (mkRat (-2) 1)) := by decide
example : pyFloat (S "1_0") = some (PyFloat.num 10) := by decide
example : pyFloat (S "_1") = none := by decide
example : pyFloat (S "1e2") = some (PyFloat.num 100) := by decide
example : pyFloat (S "2E-1") = some (PyFloat.num (mkRat 1 5)) := by decide
example : pyFloat (S "1.") = some (PyFloat.num 1) := by decide
example : pyFloat (S ".5") = some (PyFloat.num (mkRat 1 2)) := by decide
example : pyFloat (S ".") = none := by decide
example : pyFloat (S "NaN") = some PyFloat.nan := by decide
example : pyFloat (S "-inf") = some PyFloat.ninf := by decide
example : pyFloat (S "1.5.2") = none := by decide

/-! ## CSV rows -/

/-- A CSV row: association list from column name to raw string value
(a missing key models a missing column / `row.get(...) is None`). -/
abbrev Row := List (Str × Str)

/-- `row.get(k)` returning `None` for a missing key. -/
def rowGet (row : Row) (k : Str) : Option Str :=
  (row.find? (fun p => p.1 = k)).map Prod.snd

/-- `str(row.get(k, ""))`: missing key defaults to the empty string. -/
def rowGetD (row : Row) (k : Str) : Str :=
  (rowGet row k).getD []

/-! ## Word-boundary literal matching: the compiled strong-term pattern

`build_strong_index` compiles `\b(k1|k2|...)\b` with `re.IGNORECASE`, the
alternatives being the normalized keys sorted by length, descending.  For an
alternation of escaped literals, Python's matcher tries the start positions
left to right and, at each position, the alternatives in pattern order,
taking the first that matches; `finditer` then resumes after the match. -/

/-- Is the character at index `i` a word character (`false` beyond the
ends)? -/
def isWordAt (text : Str) (i : ℕ) : Bool :=
  match text[i]? with
  | some c => isWordB c
  | none => false

/-- Regex `\b` holds at position `i` (between index `i-1` and index `i`). -/
def wordBoundaryAt (text : Str) (i : ℕ) : Bool :=
  (match i with
   | 0 => false
   | j + 1 => isWordAt text j) != isWordAt text i

/-- Does the (nonempty) literal alternative `k` match at position `i`:
case-insensitive character match plus `\b` on both sides. -/
def keyMatchAt (text : Str) (i : ℕ) (k : Str) : Bool :=
  decide (k ≠ []) &&
  decide (lowerS (List.take k.length (List.drop i text)) = lowerS k) &&
  wordBoundaryAt text i && wordBoundaryAt text (i + k.length)

/-- First alternative (in pattern order) matching at position `i`. -/
def firstKeyAt (keys : List Str) (text : Str) (i : ℕ) : Option Str :=
  keys.find? (keyMatchAt text i)

/-- `pattern.finditer(text)`: scan positions left to right, emit the first
matching alternative and resume after its end.  `fuel` bounds the scan; with
`fuel = text.length + 1` it never runs out for nonempty keys. -/
def findIterGo (keys : List Str) (text : Str) : ℕ → ℕ → List (ℕ × Str)
  | _, 0 => []
  | i, fuel + 1 =>
    if i < text.length then
      match firstKeyAt keys text i with
      | some k => (i, k) :: findIterGo keys text (i + k.length) fuel
      | none => findIterGo keys text (i + 1) fuel
    else []

/-- All non-overlapping matches of the alternation in `text`, with their
start positions. -/
def findIter (keys : List Str) (text : Str) : List (ℕ × Str) :=
  findIterGo keys text 0 (text.length + 1)

/-! ## The strong-term index -/

/-- A strong-term configuration in Python dict order:
`(canonical term, weight, synonyms)`. -/
abbrev TermConfig := List (Str × ℚ × List Str)

/-- `v.replace(" ", "_")`. -/
def spaceToUnder (s : Str) : Str :=
  s.map (fun c => if c = ' ' then '_' else c)

/-- The normalized variants of one configured term: the canonical term plus
every synonym.  The source builds a Python `set`; since every variant of one
term carries the same weight, duplicates and iteration order do not change
either lookup policy below, so a list is used. -/
def variantsOf (term : Str) (syns : List Str) : List Str :=
  normSL term :: syns.map normSL

/-- Dict assignment guarded by `if prev is None or w > prev[1]` (Heavy
script): insert, or overwrite only with a strictly larger weight. -/
def dictUpdMax : List (Str × Str × ℚ) → Str → Str × ℚ → List (Str × Str × ℚ)
  | [], k, v => [(k, v)]
  | (k', v') :: rest, k, v =>
    if k' = k then
      (if v'.2 < v.2 then (k, v) :: rest else (k', v') :: rest)
    else (k', v') :: dictUpdMax rest k v

/-- Unconditional dict assignment `lookup[v] = (v, w)` (Prep script):
insert or overwrite. -/
def dictUpdLast : List (Str × Str × ℚ) → Str → Str × ℚ → List (Str × Str × ℚ)
  | [], k, v => [(k, v)]
  | (k', v') :: rest, k, v =>
    if k' = k then (k, v) :: rest else (k', v') :: dictUpdLast rest k v

/-- `lookup.get(k)`. -/
def lookupGet (lookup : List (Str × Str × ℚ)) (k : Str) : Option (Str × ℚ) :=
  (lookup.find? (fun e => e.1 = k)).map (fun e => e.2)

/-- `sorted(lookup.keys(), key=len, reverse=True)`: stable sort by length,
descending (insertion sort is stable, like Python's sort). -/
def sortKeysLenDesc (keys : List Str) : List Str :=
  List.insertionSort (fun a b : Str => b.length ≤ a.length) keys

namespace Heavy

/-- The `lookup` built by the Heavy script's `build_strong_index`: for each
term, each normalized variant is inserted as
`lookup[v] = (v.replace(" ", "_"), w)` keeping the higher weight on
collision. -/
def build_lookup (terms : TermConfig) : List (Str × Str × ℚ) :=
  terms.foldl
    (fun lk t =>
      (variantsOf t.1 t.2.2).foldl (fun lk v => dictUpdMax lk v (spaceToUnder v, t.2.1)) lk)
    []

/-- The alternatives of the compiled pattern, longest first. -/
def pattern_keys (terms : TermConfig) : List Str :=
  sortKeysLenDesc ((build_lookup terms).map (fun e => e.1))

/-- `STRONG_TERMS` of the Heavy script (weights 1.5 and 1.4). -/
def STRONG_TERMS : TermConfig :=
  [(S "Stone ocean", mkRat 3 2, [S "stone_ocean", S "stone ocean"]),
   (S "Columbia alternata", mkRat 7 5, [S "columbia_alternata"]),
   (S "blue", mkRat 7 5, [S "azure", S "cobalt", S "cerulean"]),
   (S "pyramids", mkRat 7 5, [S "pyramid", S "giza", S "egyptian_pyramids"]),
   (S "Space", mkRat 7 5, [S "cosmic", S "galactic", S "astral", S "celestial"]),
   (S "gold", mkRat 3 2, [S "golden"]),
   (S "lore", mkRat 3 2, [S "story", S "scenic"])]

/-- `STRONG_LOOKUP` global of the Heavy script. -/
def STRONG_LOOKUP : List (Str × Str × ℚ) := build_lookup STRONG_TERMS

/-- The alternatives of the Heavy script's `STRONG_PATTERN`. -/
def STRONG_KEYS : List Str := pattern_keys STRONG_TERMS

end Heavy

namespace Prep

/-- The `lookup` built by the Prep script's `build_strong_index`:
`lookup[v] = (v, w)` unconditionally, so on collision the last-seen entry
wins. -/
def build_lookup (terms : TermConfig) : List (Str × Str × ℚ) :=
  terms.foldl
    (fun lk t =>
      (variantsOf t.1 t.2.2).foldl (fun lk v => dictUpdLast lk v (v, t.2.1)) lk)
    []

/-- The alternatives of the compiled pattern, longest first. -/
def pattern_keys (terms : TermConfig) : List Str :=
  sortKeysLenDesc ((build_lookup terms).map (fun e => e.1))

/-- `STRONG_TERMS` of the Prep script (weight 1.75). -/
def STRONG_TERMS : TermConfig :=
  [(S "Stone ocean", mkRat 7 4, [S "stone_ocean", S "stone ocean"])]

/-- `STRONG_LOOKUP` global of the Prep script. -/
def STRONG_LOOKUP : List (Str × Str × ℚ) := build_lookup STRONG_TERMS

/-- The alternatives of the Prep script's `STRONG_PATTERN`. -/
def STRONG_KEYS : List Str := pattern_keys STRONG_TERMS

end Prep

example :
    Heavy.STRONG_LOOKUP.map (fun e => e.1) =
      [S "stone ocean", S "columbia alternata", S "blue", S "azure", S "cobalt",
       S "cerulean", S "pyramids", S "pyramid", S "giza", S "egyptian pyramids",
       S "space", S "cosmic", S "galactic", S "astral", S "celestial",
       S "gold", S "golden", S "lore", S "story", S "scenic"] := by decide

example : lookupGet Heavy.STRONG_LOOKUP (S "golden") = some (S "golden", mkRat 3 2) := by
  decide

example : Prep.STRONG_LOOKUP = [(S "stone ocean", S "stone ocean", mkRat 7 4)] := by decide

/-! ## Sanitizer (identical `sanitize_text` in both scripts) -/

/-- `re.sub(r'^"|"$', "", s)`: remove one leading and one trailing literal
double-quote character (each if present; a single `"` is consumed by the
leading alternative). -/
def stripQuotes (s : Str) : Str :=
  let s1 := if s.head? = some '"' then s.tail else s
  if s1.getLast? = some '"' then s1.dropLast else s1

/-- `s.endswith(('.', '!', '?'))`. -/
def endsWithPunct (s : Str) : Bool :=
  match s.getLast? with
  | some c => isPunctB c
  | none => false

/-- `sanitize_text` (lines 103–115 Heavy, 126–134 Prep): strip; drop the
`nan`/`none`/empty sentinels; strip surrounding quotes; collapse whitespace;
upper-case the first character; ensure terminal punctuation. -/
def sanitize_text (t : Str) : Str :=
  let s := pyStrip t
  if lowerS s = S "nan" ∨ lowerS s = S "none" ∨ lowerS s = [] then []
  else
    let s := stripQuotes s
    let s := collapseWs s
    let s := match s with
      | [] => []
      | c :: cs => toUpperC c :: cs
    if s ≠ [] ∧ endsWithPunct s = false then s ++ ['.']
    else s

example : sanitize_text (S "  a   wide   shot ") = S "A wide shot." := by decide
example : sanitize_text (S "\"quoted\"") = S "Quoted." := by decide
example : sanitize_text (S "NaN") = S "" := by decide
example : sanitize_text (S "done!") = S "Done!" := by decide
example : sanitize_text (S "\" a") = S " a." := by decide
example : sanitize_text (S " a.") = S "A." := by decide

/-! ## TermExtractor -/

/-- Automaton for `re.split(r"[;,]\s*", s)`: split at each `;` or `,`,
greedily consuming the following whitespace.  `skip` is true while inside
the `\s*` of a just-seen separator; `cur` is the current piece, reversed. -/
def splitCSGo : Bool → Str → Str → List Str
  | _, cur, [] => [cur.reverse]
  | skip, cur, c :: cs =>
    if skip && isSpaceB c then splitCSGo true cur cs
    else if c = ';' ∨ c = ',' then cur.reverse :: splitCSGo true [] cs
    else splitCSGo false (c :: cur) cs

/-- `re.split(r"[;,]\s*", s)`. -/
def splitCS (s : Str) : List Str := splitCSGo false [] s

example : splitCS (S "a, b;c") = [S "a", S "b", S "c"] := by decide
example : splitCS (S "a, ;b") = [S "a", S "", S "b"] := by decide
example : splitCS (S "") = [S ""] := by decide

/-- The raw split tokens scanned by `extract_strong_terms`, in field order
then within-field order (fields whose value is missing or empty are
skipped). -/
def rawFieldTokens (fields : List Str) (row : Row) : List Str :=
  fields.flatMap fun f =>
    match rowGet row f with
    | none => []
    | some v => if v = [] then [] else splitCS v

/-- The `extract_strong_terms` loop body, shared by both scripts: strip each
token, skip empties, replace underscores, dedup on the
normalized (lowercased, space-normalized) key, and — only when
`fi = true` (Prep script) — skip tokens whose key contains an issue term.
`seen` is the accumulator set of keys; the result is the `bucket` list. -/
def extractGo (fi : Bool) (issues : List Str) : List Str → List Str → List Str
  | [], _ => []
  | v :: rest, seen =>
    let val := pyStrip v
    if val = [] then extractGo fi issues rest seen
    else
      let human := replUnderscore val
      let key := normSL human
      if fi && issues.any (fun tok => subB tok key) then extractGo fi issues rest seen
      else if key ∈ seen then extractGo fi issues rest seen
      else human :: extractGo fi issues rest (key :: seen)

/-- The deduplicated token bucket of `extract_strong_terms`. -/
def strong_term_bucket (fi : Bool) (issues : List Str) (fields : List Str) (row : Row) :
    List Str :=
  extractGo fi issues (rawFieldTokens fields row) []

/-! ## Weighter -/

/-- Floor division rounding of `w * 10` to the nearest integer, ties to
even — the value of Python's `f"{w:.1f}"` digit string for a weight whose
float representation carries no further decimal error (all configured
weights are exact one- or two-decimal values). -/
def roundTenths (w : ℚ) : ℤ :=
  let t : ℤ := w.num * 10
  let d : ℤ := (w.den : ℤ)
  let q := Int.fdiv t d
  let r := t - q * d
  if 2 * r < d then q
  else if d < 2 * r then q + 1
  else if q % 2 = 0 then q else q + 1

/-- `f"{w:.1f}"` for the nonnegative weights used by the scripts. -/
def fmt1 (w : ℚ) : Str :=
  let n := roundTenths w
  let a := n.natAbs
  (if n < 0 then ['-'] else []) ++ Nat.toDigits 10 (a / 10) ++ '.' :: Nat.toDigits 10 (a % 10)

example : fmt1 (mkRat 3 2) = S "1.5" := by decide
example : fmt1 (mkRat 7 5) = S "1.4" := by decide
example : fmt1 1 = S "1.0" := by decide
example : fmt1 (mkRat 7 4) = S "1.8" := by decide

/-- One entry of the Heavy `apply_term_weighting` output list `out`: a gap
between matches, or a matched span (`tagged` marks the first occurrence of
its representative `snake` token, which receives the weight tag). -/
inductive Seg
  | gap (s : Str)
  | hit (matched snake : Str) (w : ℚ) (tagged : Bool)
deriving DecidableEq, Repr

/-- Render one `out` entry: a tagged hit is
`f"{matched} ({snake}:{w:.1f})"` (the Heavy `TERM_WEIGHT_FORMAT`), an
untagged hit is the matched span verbatim. -/
def renderSeg : Seg → Str
  | Seg.gap s => s
  | Seg.hit m sn w true => m ++ ' ' :: '(' :: (sn ++ ':' :: (fmt1 w ++ [')']))
  | Seg.hit m _ _ false => m

/-- The Heavy `apply_term_weighting` loop over the matches: emit the gap
`text[last:m.start()]`, look the normalized match up in the index, tag the
first occurrence of each `snake` representative, and track the set
`processed_snake`. -/
def wSegs (lookup : List (Str × Str × ℚ)) (text : Str) :
    List (ℕ × Str) → List Str → ℕ → List Seg
  | [], _, last => [Seg.gap (text.drop last)]
  | (st, k) :: ms, processed, last =>
    let gap := (text.drop last).take (st - last)
    let matched := (text.drop st).take k.length
    let key := normSL matched
    let sw := (lookupGet lookup key).getD (snakeLower matched, 1)
    if sw.1 ∈ processed then
      Seg.gap gap :: Seg.hit matched sw.1 sw.2 false ::
        wSegs lookup text ms processed (st + k.length)
    else
      Seg.gap gap :: Seg.hit matched sw.1 sw.2 true ::
        wSegs lookup text ms (sw.1 :: processed) (st + k.length)

/-- Heavy `apply_term_weighting` for an arbitrary index: `"".join(out)`. -/
def applyTermWeightingWith (lookup : List (Str × Str × ℚ)) (keys : List Str) (text : Str) :
    Str :=
  if text = [] then []
  else ((wSegs lookup text (findIter keys text) [] 0).map renderSeg).flatten

namespace Heavy

/-- `apply_term_weighting` (lines 138–162), reading the module-level
`STRONG_LOOKUP`/`STRONG_PATTERN`. -/
def apply_term_weighting (text : Str) : Str :=
  applyTermWeightingWith STRONG_LOOKUP STRONG_KEYS text

end Heavy

/-- The Prep `apply_term_weighting` loop: each matched span is replaced by
the representative from the lookup (the normalized key itself), gaps pass
through. -/
def ptwGo (lookup : List (Str × Str × ℚ)) (text : Str) : List (ℕ × Str) → ℕ → List Str
  | [], last => [text.drop last]
  | (st, k) :: ms, last =>
    let gap := (text.drop last).take (st - last)
    let matched := (text.drop st).take k.length
    let key := normSL matched
    let syn := ((lookupGet lookup key).getD (matched, 1)).1
    gap :: syn :: ptwGo lookup text ms (st + k.length)

namespace Prep

/-- `apply_term_weighting` (lines 151–162 of the Prep script): replace
policy. -/
def apply_term_weighting (text : Str) : Str :=
  if text = [] then []
  else (ptwGo STRONG_LOOKUP text (findIter STRONG_KEYS text) 0).flatten

end Prep

/-! ## QualityScrubber (Prep script) -/

/-- Is the head of the reversed current piece (that is, its most recently
consumed character) sentence punctuation?  This is the `(?<=[.!?])`
lookbehind. -/
def headPunctB : Str → Bool
  | p :: _ => isPunctB p
  | [] => false

/-- Automaton for `re.compile(r'(?<=[.!?])\s+').split(text)`: a separator is
a maximal whitespace run whose preceding character is sentence punctuation.
State `none` = inside a separator run; `some cur` = building a piece, `cur`
reversed (so its head is the previously consumed character). -/
def ssGo : Option Str → Str → List Str
  | none, [] => [[]]
  | none, c :: cs => if isSpaceB c then ssGo none cs else ssGo (some [c]) cs
  | some cur, [] => [cur.reverse]
  | some cur, c :: cs =>
    if isSpaceB c && headPunctB cur then cur.reverse :: ssGo none cs
    else ssGo (some (c :: cur)) cs

/-- `_SENTENCE_SPLIT.split(text)`. -/
def sentSplit (s : Str) : List Str := ssGo (some []) s

example : sentSplit (S "One. Two! Three") = [S "One.", S "Two!", S "Three"] := by decide
example : sentSplit (S "a. b.  ") = [S "a.", S "b.", S ""] := by decide
example : sentSplit (S "") = [S ""] := by decide
example : sentSplit (S "  lead. next") = [S "  lead.", S "next"] := by decide
example : sentSplit (S "a.b ok") = [S "a.b ok"] := by decide

/-- Does `sent` contain some issue token: `any(tok in sent.lower() ...)`. -/
def sentHasIssue (issues : List Str) (sent : Str) : Bool :=
  issues.any (fun tok => subB tok (lowerS sent))

namespace Prep

/-- `ISSUE_TERMS` (a Python set; only membership tests are performed, so
iteration order is irrelevant and a list is used). -/
def ISSUE_TERMS : List Str :=
  [S "blur", S "blurry", S "blurred", S "blur_noise", S "noise", S "noisy",
   S "artifact", S "artifacts", S "artifacting", S "watermark", S "watermarked",
   S "watermark_text", S "cropped", S "crop", S "duplicate", S "duplicated",
   S "jpeg", S "compression", S "banding", S "pixelation", S "pixelated"]

/-- `JUNK_PHRASES`. -/
def JUNK_PHRASES : List Str :=
  [S "other category", S "other tags", S "other attributes",
   S "other mood", S "other palette", S "other composition",
   S "misc", S "miscellaneous", S "bad quality"]

end Prep

/-- `scrub_quality_language` (lines 116–124), with the issue set made an
explicit parameter (the source reads the module-level `ISSUE_TERMS`):
drop each sentence containing an issue token, join the stripped nonempty
survivors with single spaces, and report whether anything was dropped. -/
def scrub_quality_language (issues : List Str) (text : Str) : Str × Bool :=
  if text = [] then (text, false)
  else
    let sents := sentSplit text
    let kept := sents.filter (fun sent => !sentHasIssue issues sent)
    (List.intercalate (S " ") ((kept.map pyStrip).filter (fun s => !s.isEmpty)),
      sents.any (sentHasIssue issues))

example :
    scrub_quality_language Prep.ISSUE_TERMS (S "A nice view. Some blurry mess! The end.") =
      (S "A nice view. The end.", true) := by decide
example : scrub_quality_language Prep.ISSUE_TERMS (S "All good.") = (S "All good.", false) := by
  decide
example : scrub_quality_language Prep.ISSUE_TERMS (S "") = (S "", false) := by decide

/-! ## JunkStripper (Prep script) -/

/-- One pass of `re.sub(r'\b' + re.escape(phrase) + r'\b(?:,\s*)?', '',
text, flags=re.IGNORECASE)`: scan positions left to right; at a match
(word-bounded, case-insensitive) skip the phrase plus an optional comma and
following whitespace; otherwise copy one character.  `fuel = text.length + 1`
suffices since every step advances. -/
def junkSubGo (phrase : Str) (text : Str) : ℕ → ℕ → Str
  | _, 0 => []
  | i, fuel + 1 =>
    if h : i < text.length then
      if keyMatchAt text i phrase then
        let j := i + phrase.length
        let j2 :=
          match text[j]? with
          | some ',' => (j + 1) + ((text.drop (j + 1)).takeWhile isSpaceB).length
          | _ => j
        junkSubGo phrase text j2 fuel
      else text.get ⟨i, h⟩ :: junkSubGo phrase text (i + 1) fuel
    else []

/-- Automaton for `re.sub(r',\s*,', ',', s)`: a comma, optional whitespace
and a second comma collapse to one comma; scanning resumes after the second
comma. -/
def ccGo (text : Str) : ℕ → ℕ → Str
  | _, 0 => []
  | i, fuel + 1 =>
    if h : i < text.length then
      let c := text.get ⟨i, h⟩
      if c = ',' then
        let w := ((text.drop (i + 1)).takeWhile isSpaceB).length
        match text[i + 1 + w]? with
        | some ',' => ',' :: ccGo text (i + 1 + w + 1) fuel
        | _ => c :: ccGo text (i + 1) fuel
      else c :: ccGo text (i + 1) fuel
    else []

namespace Prep

/-- `scrub_junk_phrases` (lines 89–96): remove each junk phrase
(word-bounded, case-insensitive, with one optional trailing comma), then
collapse whitespace, strip, and collapse double commas. -/
def scrub_junk_phrases (text : Str) : Str :=
  if text = [] then text
  else
    let t := JUNK_PHRASES.foldl (fun t p => junkSubGo p t 0 (t.length + 1)) text
    let t := pyStrip (collapseWs t)
    ccGo t 0 (t.length + 1)

end Prep

example : Prep.scrub_junk_phrases (S "Other category, nice view") = S "nice view" := by decide
example : Prep.scrub_junk_phrases (S "a, misc, b") = S "a, b" := by decide

/-! ## Row filtering -/

/-- `float(row.get(k, 0))`: a missing column is the number `0`; a present
value is parsed (`none` models the `ValueError`/`TypeError` the caller
catches). -/
def scoreField (row : Row) (k : Str) : Option PyFloat :=
  match rowGet row k with
  | none => some (PyFloat.num 0)
  | some v => pyFloat v

namespace Heavy

/-- The `extra_filters` loop of the Heavy `matches_filters`: every
constrained column must contain one of its allowed values
(case-insensitive substring). -/
def extraFiltersOk (row : Row) (extra : List (Str × List Str)) : Bool :=
  extra.all fun cf =>
    cf.2.isEmpty || cf.2.any (fun v => subB (lowerS v) (lowerS (rowGetD row cf.1)))

/-- `matches_filters` (lines 164–179): numeric gates first — a
`float(...)` failure on either score returns `False` — then the extra
filters. -/
def matches_filters (row : Row) (min_style min_quality : ℚ)
    (extra : List (Str × List Str)) : Bool :=
  match scoreField row (S "style_match") with
  | none => false
  | some s =>
    if pyLt s min_style then false
    else
      match scoreField row (S "quality") with
      | none => false
      | some q => if pyLt q min_quality then false else extraFiltersOk row extra

/-- `TERM_SOURCE_FIELDS` of the Heavy script. -/
def TERM_SOURCE_FIELDS : List Str :=
  [S "category", S "attributes", S "tags", S "composition", S "mood",
   S "palette", S "notes", S "human_description", S "llm_description"]

/-- `extract_strong_terms` (lines 117–136): `" ".join(bucket).strip()`. -/
def extract_strong_terms (row : Row) : Str :=
  pyStrip (List.intercalate (S " ") (strong_term_bucket false [] TERM_SOURCE_FIELDS row))

end Heavy

namespace Prep

/-- The field concatenation gathered by the Prep `matches_filters`
(lines 182–192), lower-cased. -/
def combined_text (row : Row) : Str :=
  lowerS (rowGetD row (S "file_name") ++ S " " ++ rowGetD row (S "category") ++ S " " ++
    rowGetD row (S "tags") ++ S " " ++ rowGetD row (S "human_description") ++ S " " ++
    rowGetD row (S "llm_description") ++ S " " ++ rowGetD row (S "notes") ++ S " " ++
    rowGetD row (S "attributes") ++ S " " ++ rowGetD row (S "mood") ++ S " " ++
    rowGetD row (S "palette"))

/-- The strong-term lookup loop of the Prep `matches_filters`
(lines 194–203).  The inner `break` leaves only the synonym loop, but
`found_match` is never reset, so the result is: some canonical term or some
synonym occurs in the combined text. -/
def strongTermFound (terms : TermConfig) (row : Row) : Bool :=
  terms.any fun t =>
    subB (lowerS t.1) (combined_text row) ||
      t.2.2.any (fun syn => subB (lowerS syn) (combined_text row))

/-- `matches_filters` (lines 180–217), with the module-level `STRONG_TERMS`
made an explicit parameter: strong-term gate first, then the numeric gate —
whose `float(...)` failures are swallowed by `except: pass`, so rows with
unparseable scores pass it.  The `extra_filters` argument is unused by the
source. -/
def matches_filters (terms : TermConfig) (row : Row) (min_style min_quality : ℚ)
    (_extra : List (Str × List Str)) : Bool :=
  if !strongTermFound terms row then false
  else
    match scoreField row (S "style_match"), scoreField row (S "quality") with
    | some s, some q => if pyLt s min_style || pyLt q min_quality then false else true
    | _, _ => true

/-- `TERM_SOURCE_FIELDS` of the Prep script. -/
def TERM_SOURCE_FIELDS : List Str :=
  [S "category", S "attributes", S "tags", S "composition", S "mood",
   S "palette", S "notes"]

/-- `extract_strong_terms` (lines 136–149): as Heavy, plus the
issue-vocabulary filter on dedup keys. -/
def extract_strong_terms (row : Row) : Str :=
  pyStrip (List.intercalate (S " ")
    (strong_term_bucket true ISSUE_TERMS TERM_SOURCE_FIELDS row))

end Prep

/-! ## Caption generation -/

/-- The description-selection loop shared by both `generate_description`s:
the first field whose raw value is truthy and sanitizes to a nonempty
string; otherwise the last nonempty-raw sanitization result (which is empty)
or the empty string. -/
def firstSanitizedDesc : List Str → Row → Str
  | [], _ => []
  | f :: fs, row =>
    match rowGet row f with
    | none => firstSanitizedDesc fs row
    | some v =>
      if v = [] then firstSanitizedDesc fs row
      else
        let d := sanitize_text v
        if d = [] then firstSanitizedDesc fs row else d

namespace Heavy

/-- `PRIMARY_DESCRIPTION_FIELDS` of the Heavy script. -/
def PRIMARY_DESCRIPTION_FIELDS : List Str :=
  [S "llm_description", S "human_description"]

/-- `generate_description` (lines 181–193). -/
def generate_description (row : Row) : Str :=
  let desc := firstSanitizedDesc PRIMARY_DESCRIPTION_FIELDS row
  let extra := extract_strong_terms row
  let combined := if extra ≠ [] then pyStrip (desc ++ ' ' :: extra) else desc
  apply_term_weighting combined

end Heavy

namespace Prep

/-- `generate_description` (lines 164–178): weighting, then quality scrub,
then junk scrub. -/
def generate_description (row : Row) : Str :=
  let desc := firstSanitizedDesc [S "llm_description", S "human_description"] row
  let extra := extract_strong_terms row
  let combined := if extra ≠ [] then pyStrip (desc ++ ' ' :: extra) else desc
  let weighted := apply_term_weighting combined
  let cleaned := (scrub_quality_language ISSUE_TERMS weighted).1
  scrub_junk_phrases cleaned

end Prep

/-! ## Finalizer: the five `re.sub` passes of the Prep `process_csv`
(lines 253–257) -/

/-- Automaton for `re.sub(r',\s+\.', '.', s)`.  State `some ws` means a `,`
followed by the (reversed) whitespace run `ws` is pending; a following `.`
after at least one whitespace completes the match. -/
def s1Go : Option Str → Str → Str
  | none, [] => []
  | some ws, [] => ',' :: ws.reverse
  | none, c :: cs => if c = ',' then s1Go (some []) cs else c :: s1Go none cs
  | some ws, c :: cs =>
    if isSpaceB c then s1Go (some (c :: ws)) cs
    else if c = '.' ∧ ws ≠ [] then '.' :: s1Go none cs
    else ',' :: ws.reverse ++ (if c = ',' then s1Go (some []) cs else c :: s1Go none cs)

/-- `re.sub(r',\s+\.', '.', s)`. -/
def subCommaWsDot (s : Str) : Str := s1Go none s

/-- States for the `\s+\.\s+` automaton. -/
inductive S2St
  | idle
  | ws (run : Str)
  | wsdot (run : Str)
  | dotws
deriving Repr

/-- Automaton for `re.sub(r'\s+\.\s+', ' ', s)`: leading whitespace run,
a dot, then at least one trailing whitespace (consumed greedily), replaced
by a single space. -/
def s2Go : S2St → Str → Str
  | S2St.idle, [] => []
  | S2St.ws run, [] => run.reverse
  | S2St.wsdot run, [] => run.reverse ++ ['.']
  | S2St.dotws, [] => [' ']
  | S2St.idle, c :: cs =>
    if isSpaceB c then s2Go (S2St.ws [c]) cs else c :: s2Go S2St.idle cs
  | S2St.ws run, c :: cs =>
    if isSpaceB c then s2Go (S2St.ws (c :: run)) cs
    else if c = '.' then s2Go (S2St.wsdot run) cs
    else run.reverse ++ c :: s2Go S2St.idle cs
  | S2St.wsdot run, c :: cs =>
    if isSpaceB c then s2Go S2St.dotws cs
    else run.reverse ++ '.' :: c :: s2Go S2St.idle cs
  | S2St.dotws, c :: cs =>
    if isSpaceB c then s2Go S2St.dotws cs
    else ' ' :: c :: s2Go S2St.idle cs

/-- `re.sub(r'\s+\.\s+', ' ', s)`. -/
def subWsDotWs (s : Str) : Str := s2Go S2St.idle s

/-- Automaton for `re.sub(r'\s+\.', '.', s)`: `pend` is the reversed
pending whitespace run; a following dot consumes it. -/
def wdGo : Str → Str → Str
  | pend, [] => pend.reverse
  | pend, c :: cs =>
    if isSpaceB c then wdGo (c :: pend) cs
    else if c = '.' ∧ pend ≠ [] then '.' :: wdGo [] cs
    else pend.reverse ++ c :: wdGo [] cs

/-- `re.sub(r'\s+\.', '.', s)`. -/
def subWsDot (s : Str) : Str := wdGo [] s

/-- Automaton for `re.sub(r'\.\.+', '.', s)`: every maximal run of dots
becomes a single dot (a run of length one is unchanged either way, so this
coincides with collapsing runs of two or more). -/
def dcGo (pend : Bool) : Str → Str
  | [] => if pend then ['.'] else []
  | c :: cs =>
    if c = '.' then dcGo true cs
    else if pend then '.' :: c :: dcGo false cs
    else c :: dcGo false cs

/-- `re.sub(r'\.\.+', '.', s)`. -/
def subDots (s : Str) : Str := dcGo false s

/-- The full final polish of the Prep `process_csv` (lines 253–257), the
Finalizer: the four punctuation passes, then whitespace collapse and
strip. -/
def finalize_caption (s : Str) : Str :=
  pyStrip (collapseWs (subDots (subWsDot (subWsDotWs (subCommaWsDot s)))))

example : finalize_caption (S "A shot , . of it ... done  .") = S "A shot of it. done." := by
  decide
example : finalize_caption (S "a . b") = S "a b" := by decide
example : subCommaWsDot (S ", , .") = S ", ." := by decide

/-! ## Per-row control flow of `process_csv` (callers of the pipeline) -/

/-- The distinct per-row outcomes of the Heavy `process_csv`
(lines 222–278). -/
inductive RowOutcomeH
  | triageSkip
  | filtered
  | noPath
  | missingImage
  | emptyDescription
  | written
deriving DecidableEq, Repr

/-- The `counts` dictionary of the Heavy `process_csv` (lines 211–219). -/
structure CountsH where
  total_rows : ℕ
  passed_filters : ℕ
  annotations_written : ℕ
  images_copied : ℕ
  missing_images : ℕ
  copy_errors : ℕ
  empty_descriptions : ℕ
deriving DecidableEq, Repr

namespace Heavy

/-- The per-row decision sequence of `process_csv` (lines 224–268); file
existence and copy success are environment facts passed as booleans. -/
def process_row (row : Row) (min_style min_quality : ℚ) (extra : List (Str × List Str))
    (triage_col file_col : Str) (imageExists : Bool) : RowOutcomeH :=
  if lowerS (pyStrip (rowGetD row triage_col)) = S "skip" then RowOutcomeH.triageSkip
  else if matches_filters row min_style min_quality extra = false then RowOutcomeH.filtered
  else if pyStrip (rowGetD row file_col) = [] then RowOutcomeH.noPath
  else if imageExists = false then RowOutcomeH.missingImage
  else if generate_description row = [] then RowOutcomeH.emptyDescription
  else RowOutcomeH.written

/-- The counter increments one row contributes, by outcome (lines 225,
232, 242, 248, 260, 265, 268): `empty_descriptions` is bumped exactly for
the empty-description outcome. -/
def countsDelta (o : RowOutcomeH) (dry_run copyOk : Bool) : CountsH :=
  match o with
  | RowOutcomeH.triageSkip => ⟨1, 0, 0, 0, 0, 0, 0⟩
  | RowOutcomeH.filtered => ⟨1, 0, 0, 0, 0, 0, 0⟩
  | RowOutcomeH.noPath => ⟨1, 1, 0, 0, 0, 0, 0⟩
  | RowOutcomeH.missingImage => ⟨1, 1, 0, 0, 1, 0, 0⟩
  | RowOutcomeH.emptyDescription => ⟨1, 1, 0, 0, 0, 0, 1⟩
  | RowOutcomeH.written =>
    if dry_run then ⟨1, 1, 0, 0, 0, 0, 0⟩
    else if copyOk then ⟨1, 1, 1, 1, 0, 0, 0⟩
    else ⟨1, 1, 1, 0, 0, 1, 0⟩

end Heavy

/-- The distinct per-row outcomes of the Prep `process_csv`
(lines 226–270). -/
inductive RowOutcomeP
  | filtered
  | noPath
  | missingImage
  | emptyDescription
  | written
deriving DecidableEq, Repr

/-- The `counts` dictionary of the Prep `process_csv` (line 221): only
`total` and `written` exist. -/
structure CountsP where
  total : ℕ
  written : ℕ
deriving DecidableEq, Repr

namespace Prep

/-- `STYLE_MATCH_THRESHOLD` of the Prep script. -/
def STYLE_MATCH_THRESHOLD : ℚ := 1

/-- `QUALITY_THRESHOLD` of the Prep script. -/
def QUALITY_THRESHOLD : ℚ := 1

/-- `TRIGGER_WORD` of the Prep script. -/
def TRIGGER_WORD : Str := S "my_trigger_word"

/-- `MANDATORY_CONCEPT` of the Prep script. -/
def MANDATORY_CONCEPT : Str := S "stone ocean"

/-- The trigger-word and mandatory-concept injection of `process_csv`
(lines 244–250). -/
def inject (desc : Str) : Str :=
  let d1 :=
    if TRIGGER_WORD ≠ [] ∧ subB TRIGGER_WORD desc = false then TRIGGER_WORD ++ ' ' :: desc
    else desc
  if MANDATORY_CONCEPT ≠ [] ∧ subB (lowerS MANDATORY_CONCEPT) (lowerS d1) = false then
    pyStrip d1 ++ ' ' :: MANDATORY_CONCEPT
  else d1

/-- The final caption written for a surviving row (lines 244–257). -/
def final_caption (row : Row) : Str :=
  finalize_caption (inject (generate_description row))

/-- The per-row decision sequence of the Prep `process_csv`
(lines 226–270): no triage check, and the empty-description case is a bare
`continue`. -/
def process_row (row : Row) (imageExists : Bool) : RowOutcomeP :=
  if matches_filters STRONG_TERMS row STYLE_MATCH_THRESHOLD QUALITY_THRESHOLD [] = false then
    RowOutcomeP.filtered
  else if pyStrip (rowGetD row (S "file_name")) = [] then RowOutcomeP.noPath
  else if imageExists = false then RowOutcomeP.missingImage
  else if generate_description row = [] then RowOutcomeP.emptyDescription
  else RowOutcomeP.written

/-- The counter increments one Prep row contributes (lines 227, 268):
nothing but `total` distinguishes a dropped row, whatever the reason. -/
def countsDelta (o : RowOutcomeP) (copyOk : Bool) : CountsP :=
  match o with
  | RowOutcomeP.written => if copyOk then ⟨1, 1⟩ else ⟨1, 0⟩
  | _ => ⟨1, 0⟩

end Prep

/-! ## Spec-side definitions (for comparison with the code-side ones) -/

/-- The weights of all configured terms one normalized key descends from
(in configuration order). -/
def contributingWeights (terms : TermConfig) (k : Str) : List ℚ :=
  (terms.filter (fun t => decide (k ∈ variantsOf t.1 t.2.2))).map (fun t => t.2.1)

/-- Modelled from the spec: the `first-seen` collision policy — the kept
weight for a colliding key is the weight of the first configured term
producing it. -/
def firstSeenWeight (terms : TermConfig) (k : Str) : Option ℚ :=
  (contributingWeights terms k).head?

/-- Modelled from the spec: the `maximum-weight` collision policy — the
kept weight for a key is the greatest weight among the configured terms
producing it. -/
def IsMaxWeight (terms : TermConfig) (k : Str) (w : ℚ) : Prop :=
  w ∈ contributingWeights terms k ∧ ∀ w' ∈ contributingWeights terms k, w' ≤ w

/-- `h` is the first-seen human-readable form of its dedup key in the raw
token stream `toks`: some token `v` strips nonempty, reads as `h`, and no
earlier nonempty token shares its normalized key. -/
def FirstSeenToken (toks : List Str) (h : Str) : Prop :=
  ∃ t₁ v t₂, toks = t₁ ++ v :: t₂ ∧ pyStrip v ≠ [] ∧ h = replUnderscore (pyStrip v) ∧
    ∀ u ∈ t₁, pyStrip u ≠ [] → normSL (replUnderscore (pyStrip u)) ≠ normSL h

/-- The representative (`snake`) token of a hit segment. -/
def hitSnake : Seg → Option Str
  | Seg.hit _ sn _ _ => some sn
  | _ => none

/-- The representative token of a tagged hit segment (one that received a
weight tag). -/
def taggedSnake : Seg → Option Str
  | Seg.hit _ sn _ true => some sn
  | _ => none

/-- Descending length is a total relation on strings. -/
instance : IsTotal Str (fun a b => b.length ≤ a.length) :=
  ⟨fun a b => (Nat.le_total b.length a.length).imp id id⟩

/-- Descending length is a transitive relation on strings. -/
instance : IsTrans Str (fun a b => b.length ≤ a.length) :=
  ⟨fun _ _ _ h1 h2 => le_trans h2 h1⟩

/-- The example configuration of the spec's longest-match scenario:
`gold` (1.5) and `golden` (1.4) as canonical terms. -/
def goldConfig : TermConfig :=
  [(S "gold", mkRat 3 2, []), (S "golden", mkRat 7 5, [])]

/-! ## Invariant predicates used by the idempotence and scrubber proofs -/

/-- No whitespace character immediately precedes a dot (no match for
`\\s+\\.`). -/
def Rwd (a b : Char) : Prop := isSpaceB a = true → b ≠ '.'

/-- No two adjacent dots (no match for `\\.\\.+`). -/
def Rdd (a b : Char) : Prop := a = '.' → b ≠ '.'

/-- No two adjacent whitespace characters (no run for `\\s+`). -/
def Rww (a b : Char) : Prop := isSpaceB a = true → isSpaceB b = false

/-- No whitespace character immediately follows sentence punctuation (no
match for the sentence separator `(?<=[.!?])\\s+`). -/
def Rpw (a b : Char) : Prop := isPunctB a = true → isSpaceB b = false

/-- Every character of the list is whitespace. -/
def AllWs (l : Str) : Prop := ∀ c ∈ l, isSpaceB c = true

/-- Every whitespace character of the list is a literal space. -/
def WsIsSp (l : Str) : Prop := ∀ c ∈ l, isSpaceB c = true → c = ' '

/-- The list neither starts nor ends with whitespace. -/
def NoEdgeWs (l : Str) : Prop :=
  (∀ c, l.head? = some c → isSpaceB c = false) ∧
  (∀ c, l.getLast? = some c → isSpaceB c = false)

/-- Every element of the list except possibly the last satisfies `Q`. -/
def ExceptLast (Q : Str → Prop) (L : List Str) : Prop :=
  ∀ p ∈ L.dropLast, Q p

/-- The list ends with sentence punctuation. -/
def EndsPunctP (l : Str) : Prop := ∃ c, l.getLast? = some c ∧ isPunctB c = true


/-! # Theorems -/

/-! ## C3: numeric gating on unparseable scores -/

/-- C3 (amended, Heavy variant): whenever the `style_match` or `quality`
value of a row fails to parse as a Python float, the Heavy
`matches_filters` returns `false` — the `ValueError` is caught and the row
is excluded, whatever the thresholds and extra filters. -/
theorem C3_heavy_nonnumeric_scores_fail_gate (row : Row) (ms mq : ℚ)
    (extra : List (Str × List Str)) (v : Str) (hv : pyFloat v = none)
    (h : rowGet row (S "style_match") = some v ∨ rowGet row (S "quality") = some v) :
    Heavy.matches_filters row ms mq extra = false := by
  rcases h with h | h
  · have hs : scoreField row (S "style_match") = none := by
      unfold scoreField; rw [h]; exact hv
    simp [Heavy.matches_filters, hs]
  · have hq : scoreField row (S "quality") = none := by
      unfold scoreField; rw [h]; exact hv
    cases hs : scoreField row (S "style_match") with
    | none => simp [Heavy.matches_filters, hs]
    | some s =>
      simp only [Heavy.matches_filters, hs, hq]
      cases pyLt s ms <;> simp

/-- Witness for C3: a row whose `style_match` is the unparseable string
`"high"` is rejected. -/
theorem C3_witness :
    pyFloat (S "high") = none ∧
      Heavy.matches_filters
        [(S "style_match", S "high"), (S "quality", S "4")] 3 3 [] = false :=
  ⟨by decide,
    C3_heavy_nonnumeric_scores_fail_gate _ 3 3 [] (S "high") (by decide) (Or.inl (by decide))⟩

/-- Counterexample to C3 as stated: in the Prep variant the `except: pass`
swallows the parse failure, so a row whose `style_match` is the unparseable
string `"abc"` (and which names a strong term) is *included*, not
excluded. -/
theorem C3_counterexample :
    pyFloat (S "abc") = none ∧
      Prep.matches_filters Prep.STRONG_TERMS
        [(S "file_name", S "stone ocean.png"), (S "style_match", S "abc"),
         (S "quality", S "5")] 3 3 [] = true := by
  constructor
  · decide
  · decide

/-! ## C10: the Prep strong-term gate -/

/-- C10: the Prep `matches_filters` includes a row only if some canonical
strong term or one of its synonyms occurs (lower-cased) as a substring of
the lower-cased concatenation of the row's `file_name`, `category`, `tags`,
`human_description`, `llm_description`, `notes`, `attributes`, `mood` and
`palette` fields (`combined_text`); a row with no such occurrence is
rejected regardless of the thresholds. -/
theorem C10_prep_strong_term_gate (terms : TermConfig) (row : Row) (ms mq : ℚ)
    (extra : List (Str × List Str)) :
    (Prep.strongTermFound terms row = true ↔
      ∃ t ∈ terms, subB (lowerS t.1) (Prep.combined_text row) = true ∨
        ∃ syn ∈ t.2.2, subB (lowerS syn) (Prep.combined_text row) = true) ∧
    (Prep.strongTermFound terms row = false →
      Prep.matches_filters terms row ms mq extra = false) ∧
    (Prep.matches_filters terms row ms mq extra = true →
      Prep.strongTermFound terms row = true) := by
  refine ⟨?_, ?_, ?_⟩
  · simp [Prep.strongTermFound, List.any_eq_true, Bool.or_eq_true]
  · intro h
    simp [Prep.matches_filters, h]
  · intro h
    by_contra hne
    have hf : Prep.strongTermFound terms row = false := by
      cases hx : Prep.strongTermFound terms row
      · rfl
      · exact absurd hx hne
    simp [Prep.matches_filters, hf] at h

/-- Witness for C10: a row naming no strong term is rejected even with
thresholds that its scores meet. -/
theorem C10_witness :
    Prep.strongTermFound Prep.STRONG_TERMS
        [(S "file_name", S "cat.png"), (S "style_match", S "5"), (S "quality", S "5")] =
      false ∧
    Prep.matches_filters Prep.STRONG_TERMS
        [(S "file_name", S "cat.png"), (S "style_match", S "5"), (S "quality", S "5")]
        1 1 [] = false :=
  ⟨by decide,
    (C10_prep_strong_term_gate Prep.STRONG_TERMS _ 1 1 []).2.1 (by decide)⟩

/-! ## C9: reporting of empty captions -/

/-- C9 (amended, Heavy variant): a row that survives the triage, filter,
path and image-existence gates but whose generated caption is empty gets
the distinct `emptyDescription` outcome, and the dedicated
`empty_descriptions` counter is incremented by exactly that outcome and no
other. -/
theorem C9_heavy_empty_description_reported (row : Row) (ms mq : ℚ)
    (extra : List (Str × List Str)) (tc fc : Str)
    (h1 : lowerS (pyStrip (rowGetD row tc)) ≠ S "skip")
    (h2 : Heavy.matches_filters row ms mq extra = true)
    (h3 : pyStrip (rowGetD row fc) ≠ [])
    (h4 : Heavy.generate_description row = []) :
    Heavy.process_row row ms mq extra tc fc true = RowOutcomeH.emptyDescription ∧
    (∀ dr cOk, (Heavy.countsDelta RowOutcomeH.emptyDescription dr cOk).empty_descriptions = 1) ∧
    (∀ o dr cOk, o ≠ RowOutcomeH.emptyDescription →
      (Heavy.countsDelta o dr cOk).empty_descriptions = 0) := by
  refine ⟨?_, fun dr cOk => rfl, ?_⟩
  · simp [Heavy.process_row, h1, h2, h3, h4]
  · intro o dr cOk ho
    cases o <;> simp [Heavy.countsDelta] <;> first
      | rfl
      | exact absurd rfl ho
      | (cases dr <;> cases cOk <;> rfl)

/-- Witness for C9: a concrete row passing every earlier gate with an empty
caption. -/
theorem C9_witness :
    Heavy.process_row
        [(S "file_name", S "img.png"), (S "style_match", S "5"), (S "quality", S "5")]
        3 3 [] (S "triage") (S "file_name") true = RowOutcomeH.emptyDescription ∧
    (Heavy.countsDelta RowOutcomeH.emptyDescription false true).empty_descriptions = 1 :=
  ⟨(C9_heavy_empty_description_reported _ 3 3 [] (S "triage") (S "file_name")
      (by decide) (by decide) (by decide) (by decide)).1,
    (C9_heavy_empty_description_reported
        [(S "file_name", S "img.png"), (S "style_match", S "5"), (S "quality", S "5")]
        3 3 [] (S "triage") (S "file_name")
        (by decide) (by decide) (by decide) (by decide)).2.1 false true⟩

/-- Counterexample to C9 as stated: in the Prep variant a row whose final
caption is empty is skipped by a bare `continue`; its counter contribution
equals that of an ordinary filtered row (the `counts` dictionary has only
`total` and `written`), so the empty caption is not reported as a distinct
outcome. -/
theorem C9_counterexample :
    Prep.process_row
        [(S "file_name", S "stone ocean.png"), (S "style_match", S "5"),
         (S "quality", S "5")] true = RowOutcomeP.emptyDescription ∧
    Prep.countsDelta RowOutcomeP.emptyDescription true =
      Prep.countsDelta RowOutcomeP.filtered true ∧
    Prep.countsDelta RowOutcomeP.emptyDescription true = ⟨1, 0⟩ := by
  refine ⟨by decide, rfl, rfl⟩

/-! ## C4: term-index collision policy -/

theorem lookupGet_nil (k : Str) : lookupGet [] k = none := rfl

theorem lookupGet_cons (k' : Str) (v' : Str × ℚ) (rest : List (Str × Str × ℚ)) (k : Str) :
    lookupGet ((k', v') :: rest) k = if k' = k then some v' else lookupGet rest k := by
  by_cases h : k' = k
  · simp [lookupGet, List.find?_cons_of_pos, h]
  · simp [lookupGet, List.find?_cons_of_neg, h]

theorem dictUpdMax_get_same (lk : List (Str × Str × ℚ)) (k : Str) (v : Str × ℚ) :
    lookupGet (dictUpdMax lk k v) k =
      match lookupGet lk k with
      | none => some v
      | some v' => if v'.2 < v.2 then some v else some v' := by
  induction lk with
  | nil => simp [dictUpdMax, lookupGet_cons, lookupGet_nil]
  | cons e rest ih =>
    obtain ⟨k', v'⟩ := e
    by_cases hk : k' = k
    · subst hk
      simp only [dictUpdMax, if_pos rfl]
      by_cases hw : v'.2 < v.2 <;> simp [hw, lookupGet_cons]
    · simp only [dictUpdMax, if_neg hk]
      rw [lookupGet_cons, if_neg hk, lookupGet_cons, if_neg hk, ih]

theorem dictUpdMax_get_other (lk : List (Str × Str × ℚ)) (k k' : Str) (v : Str × ℚ)
    (h : k' ≠ k) : lookupGet (dictUpdMax lk k v) k' = lookupGet lk k' := by
  have h' : k ≠ k' := fun hh => h hh.symm
  induction lk with
  | nil => simp [dictUpdMax, lookupGet_cons, lookupGet_nil, h']
  | cons e rest ih =>
    obtain ⟨k0, v0⟩ := e
    by_cases hk : k0 = k
    · subst hk
      simp only [dictUpdMax, if_pos rfl]
      by_cases hw : v0.2 < v.2 <;> simp [hw, lookupGet_cons, h']
    · simp only [dictUpdMax, if_neg hk]
      rw [lookupGet_cons, lookupGet_cons, ih]

theorem dictUpdMax_keys (lk : List (Str × Str × ℚ)) (k : Str) (v : Str × ℚ) :
    (dictUpdMax lk k v).map (fun e => e.1) =
      if k ∈ lk.map (fun e => e.1) then lk.map (fun e => e.1)
      else lk.map (fun e => e.1) ++ [k] := by
  induction lk with
  | nil => simp [dictUpdMax]
  | cons e rest ih =>
    obtain ⟨k0, v0⟩ := e
    by_cases hk : k0 = k
    · subst hk
      simp only [dictUpdMax, if_pos rfl]
      by_cases hw : v0.2 < v.2 <;> simp [hw]
    · have hk' : ¬ (k = k0) := fun hh => hk hh.symm
      simp only [dictUpdMax, if_neg hk]
      by_cases hm : k ∈ rest.map (fun e => e.1) <;> simp [hm, ih, hk']

theorem dictUpdMax_keys_nodup (lk : List (Str × Str × ℚ)) (k : Str) (v : Str × ℚ)
    (h : (lk.map (fun e => e.1)).Nodup) :
    ((dictUpdMax lk k v).map (fun e => e.1)).Nodup := by
  rw [dictUpdMax_keys]
  by_cases hm : k ∈ lk.map (fun e => e.1)
  · simpa [hm] using h
  · simp only [hm, if_false]
    rw [List.nodup_append]
    refine ⟨h, List.nodup_singleton _, fun a ha hb => ?_⟩
    simp only [List.mem_singleton] at hb
    subst hb
    exact hm ha

theorem updFold_get (w : ℚ) (vs : List Str) (lk : List (Str × Str × ℚ)) (k : Str) :
    lookupGet (vs.foldl (fun lk v => dictUpdMax lk v (spaceToUnder v, w)) lk) k =
      if k ∈ vs then
        match lookupGet lk k with
        | none => some (spaceToUnder k, w)
        | some v' => if v'.2 < w then some (spaceToUnder k, w) else some v'
      else lookupGet lk k := by
  induction vs generalizing lk with
  | nil => simp
  | cons v vs ih =>
    simp only [List.foldl_cons]
    by_cases hv : k = v
    · subst hv
      rw [ih, if_pos (List.mem_cons_self _ _), dictUpdMax_get_same]
      by_cases hm : k ∈ vs
      · rw [if_pos hm]
        rcases hg : lookupGet lk k with _ | v'
        · simp [lt_irrefl]
        · by_cases hw : v'.2 < w
          · simp [hw, lt_irrefl]
          · simp [hw]
      · rw [if_neg hm]
    · rw [ih, dictUpdMax_get_other lk v k _ hv]
      by_cases hm : k ∈ vs
      · rw [if_pos hm, if_pos (List.mem_cons_of_mem _ hm)]
      · rw [if_neg hm, if_neg (by simp [hv, hm])]

theorem cw_append_single (ts : TermConfig) (t : Str × ℚ × List Str) (k : Str) :
    contributingWeights (ts ++ [t]) k =
      contributingWeights ts k ++ (if k ∈ variantsOf t.1 t.2.2 then [t.2.1] else []) := by
  by_cases hm : k ∈ variantsOf t.1 t.2.2 <;>
    simp [contributingWeights, List.filter_append, hm]

theorem build_lookup_get (terms : TermConfig) (k : Str) :
    lookupGet (Heavy.build_lookup terms) k =
      match contributingWeights terms k with
      | [] => none
      | w :: ws => some (spaceToUnder k, ws.foldl max w) := by
  induction terms using List.reverseRecOn with
  | nil => simp [Heavy.build_lookup, contributingWeights, lookupGet_nil]
  | append_singleton ts t ih =>
    have hb : Heavy.build_lookup (ts ++ [t]) =
        (variantsOf t.1 t.2.2).foldl
          (fun lk v => dictUpdMax lk v (spaceToUnder v, t.2.1)) (Heavy.build_lookup ts) := by
      simp [Heavy.build_lookup, List.foldl_append]
    rw [hb, updFold_get, cw_append_single]
    by_cases hm : k ∈ variantsOf t.1 t.2.2
    · rw [if_pos hm, if_pos hm, ih]
      rcases hcw : contributingWeights ts k with _ | ⟨w, ws⟩
      · simp
      · simp only [List.cons_append, List.foldl_append, List.foldl_cons, List.foldl_nil]
        rcases lt_or_le (ws.foldl max w) t.2.1 with h | h
        · rw [if_pos h]
          rw [max_eq_right h.le]
        · rw [if_neg (not_lt.2 h)]
          rw [max_eq_left h]
    · rw [if_neg hm, if_neg hm, ih]
      simp

theorem foldl_max_bounds (ws : List ℚ) (w : ℚ) :
    w ≤ ws.foldl max w ∧ ∀ w' ∈ ws, w' ≤ ws.foldl max w := by
  induction ws generalizing w with
  | nil => exact ⟨le_refl _, by simp⟩
  | cons x xs ih =>
    refine ⟨le_trans (le_max_left w x) (ih (max w x)).1, ?_⟩
    intro w' hw'
    rcases List.mem_cons.1 hw' with h | h
    · subst h
      exact le_trans (le_max_right w w') (ih (max w w')).1
    · exact (ih (max w x)).2 w' h

theorem foldl_max_mem (ws : List ℚ) (w : ℚ) : ws.foldl max w = w ∨ ws.foldl max w ∈ ws := by
  induction ws generalizing w with
  | nil => exact Or.inl rfl
  | cons x xs ih =>
    simp only [List.foldl_cons]
    rcases ih (max w x) with h | h
    · rcases max_choice w x with hc | hc
      · rw [h, hc]
        exact Or.inl rfl
      · rw [h, hc]
        exact Or.inr (List.mem_cons_self _ _)
    · exact Or.inr (List.mem_cons_of_mem _ h)

theorem mem_lookupGet_of_nodup (lk : List (Str × Str × ℚ)) (k : Str) (v : Str × ℚ)
    (hnd : (lk.map (fun e => e.1)).Nodup) (hm : (k, v) ∈ lk) : lookupGet lk k = some v := by
  induction lk with
  | nil => cases hm
  | cons e rest ih =>
    obtain ⟨k0, v0⟩ := e
    rcases List.mem_cons.1 hm with h | h
    · obtain ⟨rfl, rfl⟩ := Prod.mk.injEq .. ▸ h
      injection h with h1 h2
      rw [lookupGet_cons, if_pos rfl]
    · have hk0 : k0 ≠ k := by
        intro hk
        subst hk
        have : k0 ∈ rest.map (fun e => e.1) :=
          List.mem_map.2 ⟨(k0, v), h, rfl⟩
        exact (List.nodup_cons.1 (by simpa using hnd)).1 this
      rw [lookupGet_cons, if_neg hk0]
      exact ih (List.nodup_cons.1 (by simpa using hnd)).2 h

theorem updFold_keys_nodup (w : ℚ) (vs : List Str) (lk : List (Str × Str × ℚ))
    (h : (lk.map (fun e => e.1)).Nodup) :
    (((vs.foldl (fun lk v => dictUpdMax lk v (spaceToUnder v, w)) lk)).map
      (fun e => e.1)).Nodup := by
  induction vs generalizing lk with
  | nil => exact h
  | cons v vs ih => exact ih _ (dictUpdMax_keys_nodup _ _ _ h)

theorem build_keys_nodup (terms : TermConfig) :
    ((Heavy.build_lookup terms).map (fun e => e.1)).Nodup := by
  have main : ∀ (ts : TermConfig) (lk : List (Str × Str × ℚ)),
      (lk.map (fun e => e.1)).Nodup →
      ((ts.foldl (fun lk t =>
          (variantsOf t.1 t.2.2).foldl
            (fun lk v => dictUpdMax lk v (spaceToUnder v, t.2.1)) lk) lk).map
        (fun e => e.1)).Nodup := by
    intro ts
    induction ts with
    | nil => exact fun lk h => h
    | cons t ts ih => exact fun lk h => ih _ (updFold_keys_nodup _ _ _ h)
  exact main terms [] (by simp)

/-- C4 (amended, Heavy variant): in the built index every normalized key
maps to exactly one `(representative, weight)` pair (the key list has no
duplicates and every configured variant key is present), the representative
is the key with spaces turned to underscores, and on collision the kept
entry is the maximum-weight one. -/
theorem C4_heavy_index_max_weight (terms : TermConfig) :
    ((Heavy.build_lookup terms).map (fun e => e.1)).Nodup ∧
    (∀ k rep w, (k, rep, w) ∈ Heavy.build_lookup terms →
      rep = spaceToUnder k ∧ IsMaxWeight terms k w) ∧
    (∀ t ∈ terms, ∀ k ∈ variantsOf t.1 t.2.2,
      ∃ w, lookupGet (Heavy.build_lookup terms) k = some (spaceToUnder k, w)) := by
  refine ⟨build_keys_nodup terms, ?_, ?_⟩
  · intro k rep w hm
    have hg : lookupGet (Heavy.build_lookup terms) k = some (rep, w) :=
      mem_lookupGet_of_nodup _ _ _ (build_keys_nodup terms) hm
    rw [build_lookup_get] at hg
    rcases hcw : contributingWeights terms k with _ | ⟨w0, ws⟩
    · rw [hcw] at hg
      cases hg
    · rw [hcw] at hg
      injection hg with hg
      have h1 : rep = spaceToUnder k := (congrArg Prod.fst hg).symm
      have h2 : w = ws.foldl max w0 := (congrArg Prod.snd hg).symm
      subst h2
      refine ⟨h1, ?_, ?_⟩
      · rw [hcw]
        rcases foldl_max_mem ws w0 with h | h
        · rw [h]
          exact List.mem_cons_self _ _
        · exact List.mem_cons_of_mem _ h
      · intro w' hw'
        rw [hcw] at hw'
        rcases List.mem_cons.1 hw' with h | h
        · subst h
          exact (foldl_max_bounds ws w').1
        · exact (foldl_max_bounds ws w0).2 w' h
  · intro t ht k hk
    have hne : contributingWeights terms k ≠ [] := by
      intro h0
      have : t ∈ terms.filter (fun t => decide (k ∈ variantsOf t.1 t.2.2)) :=
        List.mem_filter.2 ⟨ht, by simpa using hk⟩
      rw [contributingWeights] at h0
      rw [List.map_eq_nil_iff] at h0
      rw [h0] at this
      cases this
    rw [build_lookup_get]
    rcases hcw : contributingWeights terms k with _ | ⟨w0, ws⟩
    · exact absurd hcw hne
    · exact ⟨ws.foldl max w0, rfl⟩

/-- Witness for C4: in the Heavy index built from the gold/golden example
configuration, the key `gold` holds its snake representative and its
maximum contributing weight 1.5. -/
theorem C4_witness :
    ((S "gold", S "gold", mkRat 3 2) ∈ Heavy.build_lookup goldConfig) ∧
    (S "gold" = spaceToUnder (S "gold") ∧ IsMaxWeight goldConfig (S "gold") (mkRat 3 2)) :=
  ⟨by decide,
    (C4_heavy_index_max_weight goldConfig).2.1 (S "gold") (S "gold") (mkRat 3 2) (by decide)⟩

/-- Counterexample to C4 as stated: the Prep `build_strong_index` keeps the
*last-seen* entry on collision.  With terms `x` (weight 2) and `y`
(weight 1, synonym `x`), the key `x` keeps weight 1, while the first-seen
policy gives 2 and the maximum-weight policy also gives 2. -/
theorem C4_counterexample :
    lookupGet (Prep.build_lookup [(S "x", 2, []), (S "y", 1, [S "x"])]) (S "x") =
      some (S "x", 1) ∧
    firstSeenWeight [(S "x", 2, []), (S "y", 1, [S "x"])] (S "x") = some 2 ∧
    IsMaxWeight [(S "x", 2, []), (S "y", 1, [S "x"])] (S "x") 2 ∧
    (1 : ℚ) ≠ 2 := by
  refine ⟨by decide, by decide, ⟨by decide, ?_⟩, by decide⟩
  intro w' hw'
  have : contributingWeights [(S "x", 2, []), (S "y", 1, [S "x"])] (S "x") = [2, 1] := by
    decide
  rw [this] at hw'
  rcases List.mem_cons.1 hw' with h | h
  · exact le_of_eq h
  · simp only [List.mem_singleton] at h
    rw [h]
    decide

/-! ## C1: longest-match precedence -/

theorem sortKeysLenDesc_sorted (keys : List Str) :
    List.Sorted (fun a b : Str => b.length ≤ a.length) (sortKeysLenDesc keys) :=
  List.sorted_insertionSort _ _

theorem firstKeyAt_longest (keys : List Str) (text : Str) (i : ℕ) (k : Str)
    (hs : List.Sorted (fun a b : Str => b.length ≤ a.length) keys)
    (hf : firstKeyAt keys text i = some k) :
    ∀ k' ∈ keys, k.length < k'.length → keyMatchAt text i k' = false := by
  induction keys with
  | nil => cases hf
  | cons h t ih =>
    intro k' hk' hlen
    rcases hp : keyMatchAt text i h with _ | _
    · have hf' : firstKeyAt t text i = some k := by
        rw [firstKeyAt, List.find?_cons_of_neg _ (by simp [hp])] at hf
        exact hf
      rcases List.mem_cons.1 hk' with h' | h'
      · subst h'
        exact hp
      · exact ih (List.sorted_cons.1 hs).2 hf' k' h' hlen
    · have hkh : k = h := by
        rw [firstKeyAt, List.find?_cons_of_pos _ hp] at hf
        exact (Option.some.injEq .. ▸ hf).symm
      subst hkh
      rcases List.mem_cons.1 hk' with h' | h'
      · subst h'
        exact absurd hlen (lt_irrefl _)
      · exact absurd ((List.sorted_cons.1 hs).1 k' h') (not_le.2 hlen)

theorem findIterGo_firstKeyAt (keys : List Str) (text : Str) :
    ∀ (fuel i : ℕ) (p : ℕ × Str), p ∈ findIterGo keys text i fuel →
      firstKeyAt keys text p.1 = some p.2 := by
  intro fuel
  induction fuel with
  | zero => intro i p hp; cases hp
  | succ n ih =>
    intro i p hp
    simp only [findIterGo] at hp
    by_cases hi : i < text.length
    · rw [if_pos hi] at hp
      rcases hk : firstKeyAt keys text i with _ | k
      · rw [hk] at hp
        exact ih _ p hp
      · rw [hk] at hp
        rcases List.mem_cons.1 hp with h | h
        · subst h
          exact hk
        · exact ih _ p h
    · rw [if_neg hi] at hp
      cases hp

/-- C1: the compiled pattern's alternatives are sorted by length,
descending; at any start position the scanner yields the first (hence
longest) matching alternative, so no strictly longer configured key matches
there; every match reported by the scan is that position's first
alternative; and on the spec's example — terms `gold` and `golden`, input
`"a golden shield"` — the only match is `golden` at position 2, never
`gold`. -/
theorem C1_longest_match_precedence :
    (∀ terms, List.Sorted (fun a b : Str => b.length ≤ a.length) (Heavy.pattern_keys terms)) ∧
    (∀ (keys : List Str) (text : Str) (i : ℕ) (k : Str),
      List.Sorted (fun a b : Str => b.length ≤ a.length) keys →
      firstKeyAt keys text i = some k →
      ∀ k' ∈ keys, k.length < k'.length → keyMatchAt text i k' = false) ∧
    (∀ (keys : List Str) (text : Str), ∀ p ∈ findIter keys text,
      firstKeyAt keys text p.1 = some p.2) ∧
    (Heavy.pattern_keys goldConfig = [S "golden", S "gold"] ∧
      findIter (Heavy.pattern_keys goldConfig) (S "a golden shield") = [(2, S "golden")]) :=
  ⟨fun _ => sortKeysLenDesc_sorted _,
    fun keys text i k hs hf => firstKeyAt_longest keys text i k hs hf,
    fun keys text _ hp => findIterGo_firstKeyAt keys text _ _ _ hp,
    by decide, by decide⟩

/-- Witness for C1: with the sorted gold/golden alternatives, the match at
position 2 of `"a gold bar"` is `gold`, and the strictly longer alternative
`golden` indeed fails to match there. -/
theorem C1_witness :
    keyMatchAt (S "a gold bar") 2 (S "golden") = false :=
  C1_longest_match_precedence.2.1 [S "golden", S "gold"] (S "a gold bar") 2 (S "gold")
    (by decide) (by decide) (S "golden") (by decide) (by decide)

/-! ## C5: annotate-policy weight tags -/

theorem wSegs_spec (lookup : List (Str × Str × ℚ)) (text : Str) :
    ∀ (ms : List (ℕ × Str)) (processed : List Str) (last : ℕ),
      (∀ sn ∈ (wSegs lookup text ms processed last).filterMap taggedSnake, sn ∉ processed) ∧
      ((wSegs lookup text ms processed last).filterMap taggedSnake).Nodup ∧
      (∀ s₁ s₂ m sn w b,
        wSegs lookup text ms processed last = s₁ ++ Seg.hit m sn w b :: s₂ →
        (b = true ↔ (sn ∉ processed ∧ sn ∉ s₁.filterMap hitSnake))) := by
  intro ms
  induction ms with
  | nil =>
    intro processed last
    refine ⟨by simp [wSegs, taggedSnake], by simp [wSegs, taggedSnake], ?_⟩
    intro s₁ s₂ m sn w b heq
    exfalso
    rcases s₁ with _ | ⟨x, s₁⟩
    · simp [wSegs] at heq
    · simp [wSegs] at heq
  | cons msh mst ih =>
    intro processed last
    obtain ⟨st, k⟩ := msh
    by_cases hmem :
        ((lookupGet lookup (normSL ((text.drop st).take k.length))).getD
          (snakeLower ((text.drop st).take k.length), 1)).1 ∈ processed
    · have hw : wSegs lookup text ((st, k) :: mst) processed last =
          Seg.gap ((text.drop last).take (st - last)) ::
            Seg.hit ((text.drop st).take k.length)
              ((lookupGet lookup (normSL ((text.drop st).take k.length))).getD
                (snakeLower ((text.drop st).take k.length), 1)).1
              ((lookupGet lookup (normSL ((text.drop st).take k.length))).getD
                (snakeLower ((text.drop st).take k.length), 1)).2 false ::
            wSegs lookup text mst processed (st + k.length) := by
        simp only [wSegs]
        rw [if_pos hmem]
      rw [hw]
      obtain ⟨ih1, ih2, ih3⟩ := ih processed (st + k.length)
      refine ⟨by simpa [taggedSnake] using ih1, by simpa [taggedSnake] using ih2, ?_⟩
      intro s₁ s₂ m sn w b heq
      rcases s₁ with _ | ⟨x, s₁⟩
      · simp at heq
      rcases s₁ with _ | ⟨y, s₁⟩
      · simp only [List.cons_append, List.nil_append, List.cons.injEq] at heq
        obtain ⟨hx, hhit, hs2⟩ := heq
        obtain ⟨hm, hsn, hww, hb⟩ := Seg.hit.injEq .. ▸ hhit.symm
        subst hb hsn
        simp only [show (false = true) = False from by simp, false_iff]
        intro hcon
        exact hcon.1 hmem
      · simp only [List.cons_append, List.cons.injEq] at heq
        obtain ⟨hx, hy, hrest⟩ := heq
        have hiff := ih3 s₁ s₂ m sn w b hrest
        subst hx hy
        rw [hiff]
        simp only [List.filterMap_cons, hitSnake]
        constructor
        · rintro ⟨hp, hs⟩
          refine ⟨hp, ?_⟩
          simp only [List.mem_cons]
          rintro (h | h)
          · subst h
            exact hp hmem
          · exact hs h
        · rintro ⟨hp, hs⟩
          simp only [List.mem_cons] at hs
          exact ⟨hp, fun h => hs (Or.inr h)⟩
    · have hw : wSegs lookup text ((st, k) :: mst) processed last =
          Seg.gap ((text.drop last).take (st - last)) ::
            Seg.hit ((text.drop st).take k.length)
              ((lookupGet lookup (normSL ((text.drop st).take k.length))).getD
                (snakeLower ((text.drop st).take k.length), 1)).1
              ((lookupGet lookup (normSL ((text.drop st).take k.length))).getD
                (snakeLower ((text.drop st).take k.length), 1)).2 true ::
            wSegs lookup text mst
              (((lookupGet lookup (normSL ((text.drop st).take k.length))).getD
                (snakeLower ((text.drop st).take k.length), 1)).1 :: processed)
              (st + k.length) := by
        simp only [wSegs]
        rw [if_neg hmem]
      rw [hw]
      obtain ⟨ih1, ih2, ih3⟩ := ih
        (((lookupGet lookup (normSL ((text.drop st).take k.length))).getD
          (snakeLower ((text.drop st).take k.length), 1)).1 :: processed) (st + k.length)
      refine ⟨?_, ?_, ?_⟩
      · intro sn hsn
        simp only [List.filterMap_cons, taggedSnake] at hsn
        rcases List.mem_cons.1 hsn with h | h
        · subst h
          exact hmem
        · intro hc
          exact (ih1 sn h) (List.mem_cons_of_mem _ hc)
      · simp only [List.filterMap_cons, taggedSnake]
        refine List.nodup_cons.2 ⟨?_, ih2⟩
        intro hc
        exact (ih1 _ hc) (List.mem_cons_self _ _)
      · intro s₁ s₂ m sn w b heq
        rcases s₁ with _ | ⟨x, s₁⟩
        · simp at heq
        rcases s₁ with _ | ⟨y, s₁⟩
        · simp only [List.cons_append, List.nil_append, List.cons.injEq] at heq
          obtain ⟨hx, hhit, hs2⟩ := heq
          obtain ⟨hm, hsn, hww, hb⟩ := Seg.hit.injEq .. ▸ hhit.symm
          subst hb hsn hx
          simp only [true_iff, List.filterMap_cons, hitSnake]
          exact ⟨hmem, by simp⟩
        · simp only [List.cons_append, List.cons.injEq] at heq
          obtain ⟨hx, hy, hrest⟩ := heq
          have hiff := ih3 s₁ s₂ m sn w b hrest
          subst hx hy
          rw [hiff]
          simp only [List.filterMap_cons, hitSnake, List.mem_cons]
          tauto

/-- C5: under the annotate policy (Heavy `apply_term_weighting`), for every
text and term index the matched spans are kept verbatim (an untagged hit
renders to the span itself, a tagged one to the span followed by the
`(snake:weight)` tag with the weight to one decimal), a hit is tagged
exactly when it is the first match of its representative token, and no two
tagged hits share a representative — so no representative ever receives two
weight tags in one output. -/
theorem C5_annotate_single_tag_per_token (lookup : List (Str × Str × ℚ)) (keys : List Str)
    (text : Str) :
    ((wSegs lookup text (findIter keys text) [] 0).filterMap taggedSnake).Nodup ∧
    (∀ s₁ s₂ m sn w b,
      wSegs lookup text (findIter keys text) [] 0 = s₁ ++ Seg.hit m sn w b :: s₂ →
      (b = true ↔ sn ∉ s₁.filterMap hitSnake)) ∧
    (∀ m sn w, renderSeg (Seg.hit m sn w true) =
        m ++ ' ' :: '(' :: (sn ++ ':' :: (fmt1 w ++ [')'])) ∧
      renderSeg (Seg.hit m sn w false) = m) ∧
    (Heavy.apply_term_weighting text =
      if text = [] then []
      else ((wSegs Heavy.STRONG_LOOKUP text (findIter Heavy.STRONG_KEYS text) [] 0).map
        renderSeg).flatten) := by
  obtain ⟨h1, h2, h3⟩ := wSegs_spec lookup text (findIter keys text) [] 0
  refine ⟨h2, ?_, fun m sn w => ⟨rfl, rfl⟩, rfl⟩
  intro s₁ s₂ m sn w b heq
  rw [h3 s₁ s₂ m sn w b heq]
  simp

/-- Witness for C5: in `"gold and gold"` under the gold/golden index, the
second `gold` hit is untagged because its representative already received
its tag at the first hit. -/
theorem C5_witness :
    (false = true ↔
      S "gold" ∉
        ([Seg.gap [], Seg.hit (S "gold") (S "gold") (mkRat 3 2) true,
          Seg.gap (S " and ")].filterMap hitSnake)) :=
  (C5_annotate_single_tag_per_token (Heavy.build_lookup goldConfig)
      (Heavy.pattern_keys goldConfig) (S "gold and gold")).2.1
    [Seg.gap [], Seg.hit (S "gold") (S "gold") (mkRat 3 2) true, Seg.gap (S " and ")]
    [Seg.gap []] (S "gold") (S "gold") (mkRat 3 2) false (by decide)

/-! ## C8: extractor deduplication -/

theorem firstSeen_cons (v : Str) (toks : List Str) (h : Str)
    (hf : FirstSeenToken toks h)
    (hv : pyStrip v ≠ [] → normSL (replUnderscore (pyStrip v)) ≠ normSL h) :
    FirstSeenToken (v :: toks) h := by
  obtain ⟨t₁, v', t₂, heq, hne, hh, hall⟩ := hf
  refine ⟨v :: t₁, v', t₂, by rw [heq, List.cons_append], hne, hh, ?_⟩
  intro u hu
  rcases List.mem_cons.1 hu with h' | h'
  · subst h'
    exact hv
  · exact hall u h'

theorem extractGo_mem (fi : Bool) (issues : List Str) :
    ∀ (toks seen : List Str) (h : Str),
      h ∈ extractGo fi issues toks seen →
      normSL h ∉ seen ∧
      (fi = true → issues.any (fun tok => subB tok (normSL h)) = false) ∧
      FirstSeenToken toks h := by
  intro toks
  induction toks with
  | nil => intro seen h hh; cases hh
  | cons v rest ih =>
    intro seen h hh
    simp only [extractGo] at hh
    by_cases h1 : pyStrip v = []
    · rw [if_pos h1] at hh
      obtain ⟨hs, hfi, hfs⟩ := ih seen h hh
      exact ⟨hs, hfi, firstSeen_cons v rest h hfs (fun hne => absurd h1 hne)⟩
    · rw [if_neg h1] at hh
      by_cases h2 :
          (fi && issues.any (fun tok => subB tok (normSL (replUnderscore (pyStrip v))))) = true
      · rw [if_pos h2] at hh
        obtain ⟨hs, hfi, hfs⟩ := ih seen h hh
        refine ⟨hs, hfi, firstSeen_cons v rest h hfs ?_⟩
        intro _ hkeq
        have hfi' : fi = true := (Bool.and_eq_true .. ▸ h2).1
        have hany : issues.any (fun tok => subB tok (normSL h)) = false := hfi hfi'
        have hany' := (Bool.and_eq_true .. ▸ h2).2
        rw [hkeq] at hany'
        rw [hany] at hany'
        cases hany'
      · rw [if_neg h2] at hh
        by_cases h3 : normSL (replUnderscore (pyStrip v)) ∈ seen
        · rw [if_pos h3] at hh
          obtain ⟨hs, hfi, hfs⟩ := ih seen h hh
          refine ⟨hs, hfi, firstSeen_cons v rest h hfs ?_⟩
          intro _ hkeq
          rw [hkeq] at h3
          exact hs h3
        · rw [if_neg h3] at hh
          rcases List.mem_cons.1 hh with h4 | h4
          · subst h4
            refine ⟨h3, ?_, ?_⟩
            · intro hfi'
              rcases hany : issues.any
                  (fun tok => subB tok (normSL (replUnderscore (pyStrip v)))) with _ | _
              · rfl
              · exact absurd (by simp [hfi', hany]) h2
            · exact ⟨[], v, rest, rfl, h1, rfl, by simp⟩
          · obtain ⟨hs, hfi, hfs⟩ :=
              ih (normSL (replUnderscore (pyStrip v)) :: seen) h h4
            refine ⟨fun hc => hs (List.mem_cons_of_mem _ hc), hfi,
              firstSeen_cons v rest h hfs ?_⟩
            intro _ hkeq
            rw [hkeq] at hs
            exact hs (List.mem_cons_self _ _)

theorem extractGo_keys_nodup (fi : Bool) (issues : List Str) :
    ∀ (toks seen : List Str), ((extractGo fi issues toks seen).map normSL).Nodup := by
  intro toks
  induction toks with
  | nil => intro seen; simp [extractGo]
  | cons v rest ih =>
    intro seen
    simp only [extractGo]
    by_cases h1 : pyStrip v = []
    · rw [if_pos h1]
      exact ih seen
    · rw [if_neg h1]
      by_cases h2 :
          (fi && issues.any (fun tok => subB tok (normSL (replUnderscore (pyStrip v))))) = true
      · rw [if_pos h2]
        exact ih seen
      · rw [if_neg h2]
        by_cases h3 : normSL (replUnderscore (pyStrip v)) ∈ seen
        · rw [if_pos h3]
          exact ih seen
        · rw [if_neg h3]
          simp only [List.map_cons]
          refine List.nodup_cons.2 ⟨?_, ih _⟩
          intro hc
          rcases List.mem_map.1 hc with ⟨h', hh', hkeq⟩
          have hm2 := (extractGo_mem fi issues rest
            (normSL (replUnderscore (pyStrip v)) :: seen) h' hh').1
          rw [hkeq] at hm2
          exact hm2 (List.mem_cons_self _ _)

/-- C8: the term-extractor bucket (for either variant: with or without the
issue filter, over any field list) contains no two tokens with the same
dedup key, and every emitted token is the first-seen human-readable form of
its key in the raw token stream; both scripts' `extract_strong_terms`
return the space-joined bucket. -/
theorem C8_extractor_dedup_first_seen (fi : Bool) (issues fields : List Str) (row : Row) :
    ((strong_term_bucket fi issues fields row).map normSL).Nodup ∧
    (∀ h ∈ strong_term_bucket fi issues fields row,
      FirstSeenToken (rawFieldTokens fields row) h) ∧
    Heavy.extract_strong_terms row =
      pyStrip (List.intercalate (S " ")
        (strong_term_bucket false [] Heavy.TERM_SOURCE_FIELDS row)) ∧
    Prep.extract_strong_terms row =
      pyStrip (List.intercalate (S " ")
        (strong_term_bucket true Prep.ISSUE_TERMS Prep.TERM_SOURCE_FIELDS row)) :=
  ⟨extractGo_keys_nodup fi issues _ [],
    fun h hh => (extractGo_mem fi issues _ [] h hh).2.2, rfl, rfl⟩

/-- Witness for C8: with `category = "Stone_Ocean, gold"` and
`tags = "stone ocean; x"`, the token `gold` in the bucket is the first-seen
form of its key; the bucket itself dedups `Stone_Ocean`/`stone ocean`. -/
theorem C8_witness :
    FirstSeenToken
      (rawFieldTokens [S "category", S "tags"]
        [(S "category", S "Stone_Ocean, gold"), (S "tags", S "stone ocean; x")])
      (S "gold") :=
  (C8_extractor_dedup_first_seen false [] [S "category", S "tags"]
      [(S "category", S "Stone_Ocean, gold"), (S "tags", S "stone ocean; x")]).2.1
    (S "gold") (by decide)

/-! ## Character-level facts -/

theorem char_ofNat_toNat (n : ℕ) (h : n < 55296) : (Char.ofNat n).toNat = n := by
  have hv : n.isValidChar := Or.inl (by simpa using h)
  simp [Char.ofNat, hv, Char.toNat, Char.ofNatAux]
  rfl

theorem isSpaceB_false_of_big (c : Char) (h : 33 ≤ c.toNat) : isSpaceB c = false := by
  unfold isSpaceB
  simp only [Bool.or_eq_false_iff, decide_eq_false_iff_not]
  refine ⟨⟨⟨⟨⟨?_, ?_⟩, ?_⟩, ?_⟩, ?_⟩, ?_⟩ <;>
    · intro hc
      subst hc
      exact absurd h (by decide)

theorem toUpperC_idem (c : Char) : toUpperC (toUpperC c) = toUpperC c := by
  unfold toUpperC
  by_cases h : 97 ≤ c.toNat ∧ c.toNat ≤ 122
  · rw [if_pos h]
    have ht : (Char.ofNat (c.toNat - 32)).toNat = c.toNat - 32 :=
      char_ofNat_toNat _ (by omega)
    rw [if_neg (by omega)]
  · rw [if_neg h, if_neg h]

theorem isSpaceB_toUpperC (c : Char) : isSpaceB (toUpperC c) = isSpaceB c := by
  unfold toUpperC
  by_cases h : 97 ≤ c.toNat ∧ c.toNat ≤ 122
  · rw [if_pos h]
    have ht : (Char.ofNat (c.toNat - 32)).toNat = c.toNat - 32 :=
      char_ofNat_toNat _ (by omega)
    rw [isSpaceB_false_of_big _ (by omega), isSpaceB_false_of_big _ (by omega)]
  · rw [if_neg h]

theorem toUpperC_quote (c : Char) (h : toUpperC c = '"') : c = '"' := by
  unfold toUpperC at h
  by_cases hr : 97 ≤ c.toNat ∧ c.toNat ≤ 122
  · rw [if_pos hr] at h
    have ht : (Char.ofNat (c.toNat - 32)).toNat = c.toNat - 32 :=
      char_ofNat_toNat _ (by omega)
    have h2 := congrArg Char.toNat h
    rw [ht, show ('"' : Char).toNat = 34 from rfl] at h2
    exact absurd h2 (by omega)
  · rw [if_neg hr] at h
    exact h

theorem toLowerC_punct (c : Char) (h : isPunctB c = true) : toLowerC c = c := by
  unfold isPunctB at h
  simp only [Bool.or_eq_true, decide_eq_true_eq] at h
  rcases h with (h | h) | h <;> subst h <;> decide

theorem isPunctB_not_space (c : Char) (h : isPunctB c = true) : isSpaceB c = false := by
  unfold isPunctB at h
  simp only [Bool.or_eq_true, decide_eq_true_eq] at h
  rcases h with (h | h) | h <;> subst h <;> decide

/-! ## Strip lemmas -/

theorem head?_dropWhile_not (p : Char → Bool) :
    ∀ (l : Str) (c : Char), (l.dropWhile p).head? = some c → p c = false := by
  intro l
  induction l with
  | nil => intro c h; cases h
  | cons a t ih =>
    intro c h
    by_cases hp : p a = true
    · rw [List.dropWhile_cons, if_pos hp] at h
      exact ih c h
    · rw [List.dropWhile_cons, if_neg hp] at h
      injection h with h
      subst h
      simpa using hp

theorem dropWhile_id_of_head (p : Char → Bool) (l : Str)
    (h : ∀ c, l.head? = some c → p c = false) : l.dropWhile p = l := by
  cases l with
  | nil => rfl
  | cons a t => rw [List.dropWhile_cons, if_neg (by simp [h a rfl])]

theorem rstrip_prefix (l : Str) : ∃ t, l = rstrip l ++ t := by
  obtain ⟨u, hu⟩ := List.dropWhile_suffix (l := l.reverse) isSpaceB
  refine ⟨u.reverse, ?_⟩
  calc l = l.reverse.reverse := (List.reverse_reverse l).symm
    _ = (u ++ l.reverse.dropWhile isSpaceB).reverse := by rw [hu]
    _ = (l.reverse.dropWhile isSpaceB).reverse ++ u.reverse := by rw [List.reverse_append]

theorem lstrip_suffix (l : Str) : ∃ t, l = t ++ lstrip l := by
  obtain ⟨u, hu⟩ := List.dropWhile_suffix (l := l) isSpaceB
  exact ⟨u, hu.symm⟩

theorem pyStrip_split (l : Str) : ∃ t u, l = t ++ pyStrip l ++ u := by
  obtain ⟨t, ht⟩ := lstrip_suffix l
  obtain ⟨u, hu⟩ := rstrip_prefix (lstrip l)
  refine ⟨t, u, ?_⟩
  rw [List.append_assoc]
  have h2 : pyStrip l ++ u = lstrip l := hu.symm
  rw [h2]
  exact ht

theorem mem_pyStrip (l : Str) (c : Char) (h : c ∈ pyStrip l) : c ∈ l := by
  obtain ⟨t, u, he⟩ := pyStrip_split l
  rw [he]
  simp [h]

theorem chain'_pyStrip (R : Char → Char → Prop) (l : Str) (h : List.Chain' R l) :
    List.Chain' R (pyStrip l) := by
  obtain ⟨t, u, he⟩ := pyStrip_split l
  exact List.Chain'.infix h ⟨t, u, he.symm⟩

theorem pyStrip_noEdgeWs (l : Str) : NoEdgeWs (pyStrip l) := by
  constructor
  · intro c hc
    obtain ⟨u, hu⟩ := rstrip_prefix (lstrip l)
    have hx : (lstrip l).head? = some c := by
      rw [hu, List.head?_append]
      unfold pyStrip at hc
      rw [hc]
      rfl
    exact head?_dropWhile_not _ _ _ hx
  · intro c hc
    unfold pyStrip rstrip at hc
    rw [List.getLast?_reverse] at hc
    exact head?_dropWhile_not _ _ _ hc

theorem pyStrip_id (l : Str) (h : NoEdgeWs l) : pyStrip l = l := by
  unfold pyStrip lstrip rstrip
  rw [dropWhile_id_of_head _ _ h.1]
  rw [dropWhile_id_of_head _ _ (fun c hc => h.2 c (by rwa [List.head?_reverse] at hc))]
  rw [List.reverse_reverse]

/-! ## Whitespace-collapse lemmas -/

theorem cwGo_ws (pend : Bool) (c : Char) (cs : Str) (h : isSpaceB c = true) :
    cwGo pend (c :: cs) = cwGo true cs := by
  simp [cwGo, h]

theorem cwGo_nws_false (c : Char) (cs : Str) (h : isSpaceB c = false) :
    cwGo false (c :: cs) = c :: cwGo false cs := by
  simp [cwGo, h]

theorem cwGo_nws_true (c : Char) (cs : Str) (h : isSpaceB c = false) :
    cwGo true (c :: cs) = ' ' :: c :: cwGo false cs := by
  simp [cwGo, h]

theorem cw_head_true : ∀ l : Str, (cwGo true l).head? = some ' ' := by
  intro l
  induction l with
  | nil => rfl
  | cons c cs ih =>
    by_cases hc : isSpaceB c = true
    · rw [cwGo_ws _ _ _ hc]
      exact ih
    · rw [cwGo_nws_true _ _ (by simpa using hc)]
      rfl

theorem cw_head_cases (l : Str) (c : Char) (h : (cwGo false l).head? = some c) :
    c = ' ' ∨ l.head? = some c := by
  cases l with
  | nil => cases h
  | cons a cs =>
    by_cases ha : isSpaceB a = true
    · left
      rw [cwGo_ws _ _ _ ha, cw_head_true cs] at h
      injection h with h
      exact h.symm
    · right
      rw [cwGo_nws_false _ _ (by simpa using ha)] at h
      exact h

theorem cw_out : ∀ (l : Str) (pend : Bool),
    List.Chain' Rww (cwGo pend l) ∧ WsIsSp (cwGo pend l) := by
  intro l
  induction l with
  | nil =>
    intro pend
    cases pend
    · exact ⟨List.chain'_nil, fun c hc => by cases hc⟩
    · refine ⟨List.chain'_singleton _, fun c hc _ => ?_⟩
      have he : cwGo true ([] : Str) = [' '] := rfl
      rw [he] at hc
      simpa using hc
  | cons c cs ih =>
    intro pend
    by_cases hc : isSpaceB c = true
    · rw [cwGo_ws _ _ _ hc]
      exact ih true
    · have hc' : isSpaceB c = false := by simpa using hc
      cases pend
      · rw [cwGo_nws_false _ _ hc']
        refine ⟨List.chain'_cons'.2 ⟨fun y _ hws => absurd hws hc, (ih false).1⟩, ?_⟩
        intro d hd hws
        rcases List.mem_cons.1 hd with h | h
        · subst h
          exact absurd hws hc
        · exact (ih false).2 d h hws
      · rw [cwGo_nws_true _ _ hc']
        refine ⟨?_, ?_⟩
        · refine List.chain'_cons'.2 ⟨fun y hy => ?_, ?_⟩
          · intro _
            injection hy with hy
            subst hy
            exact hc'
          · exact List.chain'_cons'.2 ⟨fun y _ hws => absurd hws hc, (ih false).1⟩
        · intro d hd hws
          rcases List.mem_cons.1 hd with h | h
          · exact h
          · rcases List.mem_cons.1 h with h' | h'
            · subst h'
              exact absurd hws hc
            · exact (ih false).2 d h' hws

theorem cw_id : ∀ l : Str, List.Chain' Rww l → WsIsSp l → collapseWs l = l := by
  intro l
  induction l with
  | nil => intro _ _; rfl
  | cons c cs ih =>
    intro hch hsp
    by_cases hc : isSpaceB c = true
    · have hcsp : c = ' ' := hsp c (List.mem_cons_self _ _) hc
      unfold collapseWs
      rw [cwGo_ws _ _ _ hc]
      cases cs with
      | nil => rw [hcsp]; rfl
      | cons d ds =>
        have hd : isSpaceB d = false :=
          (List.chain'_cons'.1 hch).1 d rfl hc
        rw [cwGo_nws_true _ _ hd, hcsp]
        have hrec : collapseWs (d :: ds) = d :: ds :=
          ih (List.chain'_cons'.1 hch).2 (fun e he hws => hsp e (List.mem_cons_of_mem _ he) hws)
        unfold collapseWs at hrec
        rw [cwGo_nws_false _ _ hd] at hrec
        injection hrec with _ hrec
        rw [hrec]
    · have hc' : isSpaceB c = false := by simpa using hc
      unfold collapseWs
      rw [cwGo_nws_false _ _ hc']
      have hrec : collapseWs cs = cs :=
        ih (List.chain'_cons'.1 hch).2 (fun e he hws => hsp e (List.mem_cons_of_mem _ he) hws)
      unfold collapseWs at hrec
      rw [hrec]

theorem cw_mem : ∀ (l : Str) (pend : Bool) (c : Char), c ∈ cwGo pend l → c ∈ l ∨ c = ' ' := by
  intro l
  induction l with
  | nil =>
    intro pend c hc
    cases pend
    · cases hc
    · right
      have he : cwGo true ([] : Str) = [' '] := rfl
      rw [he] at hc
      simpa using hc
  | cons a cs ih =>
    intro pend c hc
    by_cases ha : isSpaceB a = true
    · rw [cwGo_ws _ _ _ ha] at hc
      rcases ih true c hc with h | h
      · exact Or.inl (List.mem_cons_of_mem _ h)
      · exact Or.inr h
    · have ha' : isSpaceB a = false := by simpa using ha
      cases pend
      · rw [cwGo_nws_false _ _ ha'] at hc
        rcases List.mem_cons.1 hc with h | h
        · exact Or.inl (h ▸ List.mem_cons_self _ _)
        · rcases ih false c h with h' | h'
          · exact Or.inl (List.mem_cons_of_mem _ h')
          · exact Or.inr h'
      · rw [cwGo_nws_true _ _ ha'] at hc
        rcases List.mem_cons.1 hc with h | h
        · exact Or.inr h
        · rcases List.mem_cons.1 h with h' | h'
          · exact Or.inl (h' ▸ List.mem_cons_self _ _)
          · rcases ih false c h' with h'' | h''
            · exact Or.inl (List.mem_cons_of_mem _ h'')
            · exact Or.inr h''

theorem cw_head_keep (c : Char) (cs : Str) (h : isSpaceB c = false) :
    (collapseWs (c :: cs)).head? = some c := by
  unfold collapseWs
  rw [cwGo_nws_false _ _ h]
  rfl

theorem cw_ne_nil : ∀ (l : Str) (pend : Bool), (pend = true ∨ l ≠ []) → cwGo pend l ≠ [] := by
  intro l
  induction l with
  | nil =>
    intro pend h
    rcases h with h | h
    · subst h
      intro hc
      cases hc
    · exact absurd rfl h
  | cons c cs ih =>
    intro pend _
    by_cases hc : isSpaceB c = true
    · rw [cwGo_ws _ _ _ hc]
      exact ih true (Or.inl rfl)
    · have hc' : isSpaceB c = false := by simpa using hc
      cases pend
      · rw [cwGo_nws_false _ _ hc']
        simp
      · rw [cwGo_nws_true _ _ hc']
        simp

theorem cw_chain_wd : ∀ (l : Str) (pend : Bool),
    List.Chain' Rwd l → (pend = true → ∀ c, l.head? = some c → c ≠ '.') →
    List.Chain' Rwd (cwGo pend l) := by
  intro l
  induction l with
  | nil =>
    intro pend _ _
    cases pend
    · exact List.chain'_nil
    · exact List.chain'_singleton _
  | cons c cs ih =>
    intro pend hch hpd
    by_cases hc : isSpaceB c = true
    · rw [cwGo_ws _ _ _ hc]
      refine ih true (List.chain'_cons'.1 hch).2 (fun _ d hd => ?_)
      exact (List.chain'_cons'.1 hch).1 d hd hc
    · have hc' : isSpaceB c = false := by simpa using hc
      cases pend
      · rw [cwGo_nws_false _ _ hc']
        refine List.chain'_cons'.2 ⟨fun y _ hws => absurd hws hc, ?_⟩
        exact ih false (List.chain'_cons'.1 hch).2 (fun h => by cases h)
      · rw [cwGo_nws_true _ _ hc']
        refine List.chain'_cons'.2 ⟨fun y hy _ => ?_, ?_⟩
        · injection hy with hy
          subst hy
          exact hpd rfl c rfl
        · refine List.chain'_cons'.2 ⟨fun y _ hws => absurd hws hc, ?_⟩
          exact ih false (List.chain'_cons'.1 hch).2 (fun h => by cases h)

theorem ws_ne_dot (c : Char) (h : isSpaceB c = true) : c ≠ '.' := by
  intro he
  subst he
  cases h

theorem cw_chain_dd : ∀ (l : Str) (pend : Bool),
    List.Chain' Rdd l → List.Chain' Rwd l → List.Chain' Rdd (cwGo pend l) := by
  intro l
  induction l with
  | nil =>
    intro pend _ _
    cases pend
    · exact List.chain'_nil
    · exact List.chain'_singleton _
  | cons c cs ih =>
    intro pend hdd hwd
    by_cases hc : isSpaceB c = true
    · rw [cwGo_ws _ _ _ hc]
      exact ih true (List.chain'_cons'.1 hdd).2 (List.chain'_cons'.1 hwd).2
    · have hc' : isSpaceB c = false := by simpa using hc
      have tail_dd := (List.chain'_cons'.1 hdd).2
      have tail_wd := (List.chain'_cons'.1 hwd).2
      have hpair : ∀ y, (cwGo false cs).head? = some y → Rdd c y := by
        intro y hy hcd
        rcases cw_head_cases cs y hy with h | h
        · subst h
          intro h'
          cases h'
        · exact (List.chain'_cons'.1 hdd).1 y h hcd
      cases pend
      · rw [cwGo_nws_false _ _ hc']
        exact List.chain'_cons'.2 ⟨fun y hy => hpair y hy, ih false tail_dd tail_wd⟩
      · rw [cwGo_nws_true _ _ hc']
        refine List.chain'_cons'.2 ⟨fun y hy hsp => ?_, ?_⟩
        · cases hsp
        · exact List.chain'_cons'.2 ⟨fun y hy => hpair y hy, ih false tail_dd tail_wd⟩

/-! ## Dot-before-whitespace (`\s+\.`) lemmas -/

theorem wdGo_ws_eq (pend : Str) (c : Char) (cs : Str) (h : isSpaceB c = true) :
    wdGo pend (c :: cs) = wdGo (c :: pend) cs := by
  simp [wdGo, h]

theorem wdGo_dot_eq (pend : Str) (cs : Str) (h : pend ≠ []) :
    wdGo pend ('.' :: cs) = '.' :: wdGo [] cs := by
  simp [wdGo, h, show isSpaceB '.' = false from rfl]

theorem wdGo_flush_eq (pend : Str) (c : Char) (cs : Str) (h1 : isSpaceB c = false)
    (h2 : ¬(c = '.' ∧ pend ≠ [])) :
    wdGo pend (c :: cs) = pend.reverse ++ c :: wdGo [] cs := by
  by_cases hc : c = '.'
  · have hp : pend = [] := by
      by_contra hp
      exact h2 ⟨hc, hp⟩
    subst hp hc
    simp [wdGo, show isSpaceB '.' = false from rfl]
  · simp [wdGo, h1, hc]

theorem chain'_allWs_rwd (l : Str) (h : AllWs l) : List.Chain' Rwd l := by
  induction l with
  | nil => exact List.chain'_nil
  | cons c cs ih =>
    refine List.chain'_cons'.2 ⟨fun y hy _ => ?_, ih (fun d hd => h d (List.mem_cons_of_mem _ hd))⟩
    refine ws_ne_dot y (h y ?_)
    rcases cs with _ | ⟨d, ds⟩
    · cases hy
    · injection hy with hy
      subst hy
      exact List.mem_cons_of_mem _ (List.mem_cons_self _ _)

theorem allWs_reverse (l : Str) (h : AllWs l) : AllWs l.reverse := by
  intro c hc
  exact h c (List.mem_reverse.1 hc)

theorem wd_out : ∀ (l pend : Str), AllWs pend → List.Chain' Rwd (wdGo pend l) := by
  intro l
  induction l with
  | nil =>
    intro pend hp
    exact chain'_allWs_rwd _ (allWs_reverse _ hp)
  | cons c cs ih =>
    intro pend hp
    by_cases hws : isSpaceB c = true
    · rw [wdGo_ws_eq _ _ _ hws]
      refine ih (c :: pend) (fun d hd => ?_)
      rcases List.mem_cons.1 hd with h | h
      · subst h
        exact hws
      · exact hp d h
    · have hws' : isSpaceB c = false := by simpa using hws
      by_cases hdot : c = '.' ∧ pend ≠ []
      · obtain ⟨rfl, hpne⟩ := hdot
        rw [wdGo_dot_eq _ _ hpne]
        refine List.chain'_cons'.2 ⟨fun y _ hsp => ?_, ih [] (fun d hd => by cases hd)⟩
        cases hsp
      · rw [wdGo_flush_eq _ _ _ hws' hdot]
        rw [List.chain'_append]
        refine ⟨chain'_allWs_rwd _ (allWs_reverse _ hp), ?_, ?_⟩
        · refine List.chain'_cons'.2 ⟨fun y _ hsp => absurd hsp (by simp [hws']), ?_⟩
          exact ih [] (fun d hd => by cases hd)
        · intro x hx y hy
          intro hxsp
          injection hy with hy
          subst hy
          intro hcdot
          subst hcdot
          have hpne : pend ≠ [] := by
            intro hp0
            subst hp0
            cases hx
          exact hdot ⟨rfl, hpne⟩

theorem wd_id_aux : ∀ (l pend : Str), AllWs pend →
    List.Chain' Rwd (pend.reverse ++ l) → wdGo pend l = pend.reverse ++ l := by
  intro l
  induction l with
  | nil =>
    intro pend _ _
    simp [wdGo]
  | cons c cs ih =>
    intro pend hp hch
    by_cases hws : isSpaceB c = true
    · rw [wdGo_ws_eq _ _ _ hws]
      have heq : (c :: pend).reverse ++ cs = pend.reverse ++ c :: cs := by
        simp
      rw [ih (c :: pend)
        (fun d hd => by
          rcases List.mem_cons.1 hd with h | h
          · subst h; exact hws
          · exact hp d h)
        (by rw [heq]; exact hch), heq]
    · have hws' : isSpaceB c = false := by simpa using hws
      by_cases hdot : c = '.' ∧ pend ≠ []
      · exfalso
        obtain ⟨rfl, hpne⟩ := hdot
        obtain ⟨_, _, hb⟩ := List.chain'_append.1 hch
        rcases pend with _ | ⟨p, ps⟩
        · exact hpne rfl
        · have hlast : ((p :: ps).reverse).getLast? = some p := by
            rw [List.getLast?_reverse]
            rfl
          have := hb p hlast '.' rfl
          exact this (hp p (List.mem_cons_self _ _)) rfl
      · rw [wdGo_flush_eq _ _ _ hws' hdot]
        have hcs : List.Chain' Rwd cs := by
          obtain ⟨_, h2, _⟩ := List.chain'_append.1 hch
          exact (List.chain'_cons'.1 h2).2
        have := ih [] (fun d hd => by cases hd) (by simpa using hcs)
        simp only [List.reverse_nil, List.nil_append] at this
        rw [this]

theorem subWsDot_out (l : Str) : List.Chain' Rwd (subWsDot l) :=
  wd_out l [] (fun d hd => by cases hd)

theorem subWsDot_id (l : Str) (h : List.Chain' Rwd l) : subWsDot l = l := by
  have := wd_id_aux l [] (fun d hd => by cases hd) (by simpa using h)
  simpa using this

/-! ## Dot-run collapse (`\.\.+`) lemmas -/

theorem dcGo_dot (pend : Bool) (cs : Str) : dcGo pend ('.' :: cs) = dcGo true cs := by
  simp [dcGo]

theorem dcGo_plain_false (c : Char) (cs : Str) (h : c ≠ '.') :
    dcGo false (c :: cs) = c :: dcGo false cs := by
  simp [dcGo, h]

theorem dcGo_plain_true (c : Char) (cs : Str) (h : c ≠ '.') :
    dcGo true (c :: cs) = '.' :: c :: dcGo false cs := by
  simp [dcGo, h]

theorem dc_head_true : ∀ l : Str, (dcGo true l).head? = some '.' := by
  intro l
  induction l with
  | nil => rfl
  | cons c cs ih =>
    by_cases hc : c = '.'
    · subst hc
      rw [dcGo_dot]
      exact ih
    · rw [dcGo_plain_true _ _ hc]
      rfl

theorem dc_head_false : ∀ (cs : Str) (y : Char), (dcGo false cs).head? = some y →
    cs.head? = some y := by
  intro cs y h
  cases cs with
  | nil => cases h
  | cons c t =>
    by_cases hc : c = '.'
    · subst hc
      rw [dcGo_dot, dc_head_true] at h
      exact h
    · rw [dcGo_plain_false _ _ hc] at h
      exact h

theorem dc_out_dd : ∀ (l : Str) (pend : Bool), List.Chain' Rdd (dcGo pend l) := by
  intro l
  induction l with
  | nil =>
    intro pend
    cases pend
    · exact List.chain'_nil
    · exact List.chain'_singleton _
  | cons c cs ih =>
    intro pend
    by_cases hc : c = '.'
    · subst hc
      rw [dcGo_dot]
      exact ih true
    · cases pend
      · rw [dcGo_plain_false _ _ hc]
        exact List.chain'_cons'.2 ⟨fun y _ hcd => absurd hcd hc, ih false⟩
      · rw [dcGo_plain_true _ _ hc]
        refine List.chain'_cons'.2 ⟨fun y hy _ => ?_, ?_⟩
        · injection hy with hy
          subst hy
          exact hc
        · exact List.chain'_cons'.2 ⟨fun y _ hcd => absurd hcd hc, ih false⟩

theorem dc_id : ∀ l : Str, List.Chain' Rdd l → subDots l = l := by
  intro l
  induction l with
  | nil => intro _; rfl
  | cons c cs ih =>
    intro hch
    by_cases hc : c = '.'
    · subst hc
      unfold subDots
      rw [dcGo_dot]
      cases cs with
      | nil => rfl
      | cons d ds =>
        have hd : d ≠ '.' := (List.chain'_cons'.1 hch).1 d rfl rfl
        rw [dcGo_plain_true _ _ hd]
        have hrec : subDots (d :: ds) = d :: ds := ih (List.chain'_cons'.1 hch).2
        unfold subDots at hrec
        rw [dcGo_plain_false _ _ hd] at hrec
        injection hrec with _ hrec
        rw [hrec]
    · unfold subDots
      rw [dcGo_plain_false _ _ hc]
      have hrec : subDots cs = cs := ih (List.chain'_cons'.1 hch).2
      unfold subDots at hrec
      rw [hrec]

theorem dc_chain_wd : ∀ (l : Str) (pend : Bool),
    List.Chain' Rwd l → List.Chain' Rwd (dcGo pend l) := by
  intro l
  induction l with
  | nil =>
    intro pend _
    cases pend
    · exact List.chain'_nil
    · exact List.chain'_singleton _
  | cons c cs ih =>
    intro pend hch
    by_cases hc : c = '.'
    · subst hc
      rw [dcGo_dot]
      exact ih true (List.chain'_cons'.1 hch).2
    · have hpair : ∀ y, (dcGo false cs).head? = some y → Rwd c y := by
        intro y hy hsp
        exact (List.chain'_cons'.1 hch).1 y (dc_head_false cs y hy) hsp
      cases pend
      · rw [dcGo_plain_false _ _ hc]
        exact List.chain'_cons'.2 ⟨hpair, ih false (List.chain'_cons'.1 hch).2⟩
      · rw [dcGo_plain_true _ _ hc]
        refine List.chain'_cons'.2 ⟨?_, ?_⟩
        · intro y hy hsp
          exact absurd hsp (by decide)
        · exact List.chain'_cons'.2 ⟨hpair, ih false (List.chain'_cons'.1 hch).2⟩

/-! ## `,\s+\.` and `\s+\.\s+` identity lemmas -/

theorem s1Go_none_comma (cs : Str) : s1Go none (',' :: cs) = s1Go (some []) cs := by
  simp [s1Go]

theorem s1Go_none_other (c : Char) (cs : Str) (h : c ≠ ',') :
    s1Go none (c :: cs) = c :: s1Go none cs := by
  simp [s1Go, h]

theorem s1Go_some_ws (ws : Str) (c : Char) (cs : Str) (h : isSpaceB c = true) :
    s1Go (some ws) (c :: cs) = s1Go (some (c :: ws)) cs := by
  simp [s1Go, h]

theorem s1Go_some_flush (ws : Str) (c : Char) (cs : Str) (h1 : isSpaceB c = false)
    (h2 : ¬(c = '.' ∧ ws ≠ [])) :
    s1Go (some ws) (c :: cs) =
      ',' :: ws.reverse ++ (if c = ',' then s1Go (some []) cs else c :: s1Go none cs) := by
  by_cases hc : c = '.'
  · have hp : ws = [] := by
      by_contra hp
      exact h2 ⟨hc, hp⟩
    subst hp hc
    simp [s1Go, show isSpaceB '.' = false from rfl]
  · simp [s1Go, h1, hc]

theorem s1_id_both : ∀ l : Str,
    (List.Chain' Rwd l → s1Go none l = l) ∧
    (∀ ws, AllWs ws → List.Chain' Rwd (ws.reverse ++ l) →
      s1Go (some ws) l = ',' :: ws.reverse ++ l) := by
  intro l
  induction l with
  | nil =>
    refine ⟨fun _ => rfl, fun ws _ _ => ?_⟩
    simp [s1Go]
  | cons c cs ih =>
    constructor
    · intro hch
      by_cases hc : c = ','
      · subst hc
        rw [s1Go_none_comma]
        have := ih.2 [] (fun d hd => by cases hd) (by simpa using (List.chain'_cons'.1 hch).2)
        simpa using this
      · rw [s1Go_none_other _ _ hc, ih.1 (List.chain'_cons'.1 hch).2]
    · intro ws hws hch
      by_cases hsp : isSpaceB c = true
      · rw [s1Go_some_ws _ _ _ hsp]
        have heq : (c :: ws).reverse ++ cs = ws.reverse ++ c :: cs := by simp
        have := ih.2 (c :: ws)
          (fun d hd => by
            rcases List.mem_cons.1 hd with h | h
            · subst h; exact hsp
            · exact hws d h)
          (by rw [heq]; exact hch)
        rw [this]
        simp
      · have hsp' : isSpaceB c = false := by simpa using hsp
        by_cases hdot : c = '.' ∧ ws ≠ []
        · exfalso
          obtain ⟨rfl, hpne⟩ := hdot
          obtain ⟨_, _, hb⟩ := List.chain'_append.1 hch
          rcases ws with _ | ⟨p, ps⟩
          · exact hpne rfl
          · have hlast : ((p :: ps).reverse).getLast? = some p := by
              rw [List.getLast?_reverse]
              rfl
            exact hb p hlast '.' rfl (hws p (List.mem_cons_self _ _)) rfl
        · rw [s1Go_some_flush _ _ _ hsp' hdot]
          have hcs : List.Chain' Rwd cs := by
            obtain ⟨_, h2, _⟩ := List.chain'_append.1 hch
            exact (List.chain'_cons'.1 h2).2
          by_cases hc : c = ','
          · subst hc
            rw [if_pos rfl]
            have := ih.2 [] (fun d hd => by cases hd) (by simpa using hcs)
            simp only [List.reverse_nil, List.nil_append] at this
            rw [this]
            simp
          · rw [if_neg hc, ih.1 hcs]

theorem subCommaWsDot_id (l : Str) (h : List.Chain' Rwd l) : subCommaWsDot l = l :=
  (s1_id_both l).1 h

theorem s2Go_idle_ws (c : Char) (cs : Str) (h : isSpaceB c = true) :
    s2Go S2St.idle (c :: cs) = s2Go (S2St.ws [c]) cs := by
  simp [s2Go, h]

theorem s2Go_idle_other (c : Char) (cs : Str) (h : isSpaceB c = false) :
    s2Go S2St.idle (c :: cs) = c :: s2Go S2St.idle cs := by
  simp [s2Go, h]

theorem s2Go_ws_ws (run : Str) (c : Char) (cs : Str) (h : isSpaceB c = true) :
    s2Go (S2St.ws run) (c :: cs) = s2Go (S2St.ws (c :: run)) cs := by
  simp [s2Go, h]

theorem s2Go_ws_dot (run : Str) (cs : Str) :
    s2Go (S2St.ws run) ('.' :: cs) = s2Go (S2St.wsdot run) cs := by
  simp [s2Go, show isSpaceB '.' = false from rfl]

theorem s2Go_ws_other (run : Str) (c : Char) (cs : Str) (h1 : isSpaceB c = false)
    (h2 : c ≠ '.') :
    s2Go (S2St.ws run) (c :: cs) = run.reverse ++ c :: s2Go S2St.idle cs := by
  simp [s2Go, h1, h2]

theorem s2_id_both : ∀ l : Str,
    (List.Chain' Rwd l → s2Go S2St.idle l = l) ∧
    (∀ run, AllWs run → run ≠ [] → List.Chain' Rwd (run.reverse ++ l) →
      s2Go (S2St.ws run) l = run.reverse ++ l) := by
  intro l
  induction l with
  | nil =>
    refine ⟨fun _ => rfl, fun run _ _ _ => ?_⟩
    simp [s2Go]
  | cons c cs ih =>
    constructor
    · intro hch
      by_cases hsp : isSpaceB c = true
      · rw [s2Go_idle_ws _ _ hsp]
        have hall : AllWs [c] := by
          intro d hd
          rcases List.mem_cons.1 hd with h | h
          · subst h; exact hsp
          · cases h
        have := ih.2 [c] hall (by simp) (by simpa using hch)
        simpa using this
      · have hsp' : isSpaceB c = false := by simpa using hsp
        rw [s2Go_idle_other _ _ hsp', ih.1 (List.chain'_cons'.1 hch).2]
    · intro run hrun hne hch
      by_cases hsp : isSpaceB c = true
      · rw [s2Go_ws_ws _ _ _ hsp]
        have heq : (c :: run).reverse ++ cs = run.reverse ++ c :: cs := by simp
        have := ih.2 (c :: run)
          (fun d hd => by
            rcases List.mem_cons.1 hd with h | h
            · subst h; exact hsp
            · exact hrun d h)
          (by simp) (by rw [heq]; exact hch)
        rw [this]
        simp
      · have hsp' : isSpaceB c = false := by simpa using hsp
        by_cases hc : c = '.'
        · exfalso
          subst hc
          obtain ⟨_, _, hb⟩ := List.chain'_append.1 hch
          rcases run with _ | ⟨p, ps⟩
          · exact hne rfl
          · have hlast : ((p :: ps).reverse).getLast? = some p := by
              rw [List.getLast?_reverse]
              rfl
            exact hb p hlast '.' rfl (hrun p (List.mem_cons_self _ _)) rfl
        · rw [s2Go_ws_other _ _ _ hsp' hc]
          have hcs : List.Chain' Rwd cs := by
            obtain ⟨_, h2, _⟩ := List.chain'_append.1 hch
            exact (List.chain'_cons'.1 h2).2
          rw [ih.1 hcs]

theorem subWsDotWs_id (l : Str) (h : List.Chain' Rwd l) : subWsDotWs l = l :=
  (s2_id_both l).1 h

/-- C6: the Finalizer — the fixed ordered sequence of the five `re.sub`
passes in the Prep `process_csv` — is idempotent: applying it twice equals
applying it once, for every string. -/
theorem C6_finalizer_idempotent (s : Str) :
    finalize_caption (finalize_caption s) = finalize_caption s := by
  unfold finalize_caption
  set w1 := subWsDot (subWsDotWs (subCommaWsDot s)) with hw1
  set w2 := subDots w1 with hw2
  set w3 := collapseWs w2 with hw3
  set y := pyStrip w3 with hy
  have h1wd : List.Chain' Rwd w1 := subWsDot_out _
  have h2wd : List.Chain' Rwd w2 := dc_chain_wd w1 false h1wd
  have h2dd : List.Chain' Rdd w2 := dc_out_dd w1 false
  have h3ww : List.Chain' Rww w3 := (cw_out w2 false).1
  have h3sp : WsIsSp w3 := (cw_out w2 false).2
  have h3wd : List.Chain' Rwd w3 := cw_chain_wd w2 false h2wd (fun h => by cases h)
  have h3dd : List.Chain' Rdd w3 := cw_chain_dd w2 false h2dd h2wd
  have hywd : List.Chain' Rwd y := chain'_pyStrip _ _ h3wd
  have hydd : List.Chain' Rdd y := chain'_pyStrip _ _ h3dd
  have hyww : List.Chain' Rww y := chain'_pyStrip _ _ h3ww
  have hysp : WsIsSp y := fun c hc hw => h3sp c (mem_pyStrip _ _ hc) hw
  rw [subCommaWsDot_id y hywd, subWsDotWs_id y hywd, subWsDot_id y hywd, dc_id y hydd,
    cw_id y hyww hysp, pyStrip_id y (pyStrip_noEdgeWs w3)]

/-! ## C2: sanitizer idempotence -/

theorem mem_of_getLast?_eq (l : Str) (c : Char) (h : l.getLast? = some c) : c ∈ l := by
  obtain ⟨hne, heq⟩ := List.mem_getLast?_eq_getLast (show c ∈ l.getLast? from h)
  rw [heq]
  exact List.getLast_mem hne

theorem stripQuotes_id (l : Str) (h : '"' ∉ l) : stripQuotes l = l := by
  unfold stripQuotes
  have h1 : (l.head? = some '"') = False := by
    simp only [eq_iff_iff, iff_false]
    intro hc
    exact h (List.mem_of_mem_head? hc)
  have h2 : (l.getLast? = some '"') = False := by
    simp only [eq_iff_iff, iff_false]
    intro hc
    exact h (mem_of_getLast?_eq l _ hc)
  simp only [h1, if_false, h2]

theorem lowerS_getLast (l : Str) : (lowerS l).getLast? = l.getLast?.map toLowerC := by
  unfold lowerS
  exact List.getLast?_map _ _

theorem endsWithPunct_iff (l : Str) :
    endsWithPunct l = true ↔ ∃ c, l.getLast? = some c ∧ isPunctB c = true := by
  unfold endsWithPunct
  cases hg : l.getLast? with
  | none => simp
  | some c => simp [hg]

theorem not_sentinel_of_endsPunct (y : Str) (h : ∃ c, y.getLast? = some c ∧ isPunctB c = true) :
    ¬(lowerS y = S "nan" ∨ lowerS y = S "none" ∨ lowerS y = []) := by
  obtain ⟨c, hc, hp⟩ := h
  have hlast : (lowerS y).getLast? = some c := by
    rw [lowerS_getLast, hc]
    simp [toLowerC_punct c hp]
  rintro (he | he | he) <;> rw [he] at hlast
  · have hn : (S "nan").getLast? = some 'n' := by decide
    rw [hn] at hlast
    injection hlast with hlast
    subst hlast
    exact absurd hp (by decide)
  · have hn : (S "none").getLast? = some 'e' := by decide
    rw [hn] at hlast
    injection hlast with hlast
    subst hlast
    exact absurd hp (by decide)
  · cases hlast

theorem sanitize_fixpoint (y : Str)
    (hedge : NoEdgeWs y)
    (hq : '"' ∉ y)
    (hww : List.Chain' Rww y)
    (hsp : WsIsSp y)
    (hcap : ∃ c cs, y = c :: cs ∧ toUpperC c = c)
    (hpunct : endsWithPunct y = true) :
    sanitize_text y = y := by
  simp only [sanitize_text]
  rw [pyStrip_id y hedge]
  rw [if_neg (not_sentinel_of_endsPunct y ((endsWithPunct_iff y).1 hpunct))]
  rw [stripQuotes_id y hq]
  rw [show collapseWs y = y from cw_id y hww hsp]
  obtain ⟨c, cs, rfl, hcapc⟩ := hcap
  simp only [hcapc]
  rw [if_neg (fun hc => by rw [hpunct] at hc; exact absurd hc.2 (by simp))]

/-- C2 (amended): `sanitize_text` is idempotent on every string that
contains no double-quote character.  (Quote stripping can expose interior
whitespace at the edges, which is what breaks idempotence in general; see
the counterexample.) -/
theorem C2_sanitize_idempotent_quote_free (x : Str) (hq : '"' ∉ x) :
    sanitize_text (sanitize_text x) = sanitize_text x := by
  by_cases hsent : lowerS (pyStrip x) = S "nan" ∨ lowerS (pyStrip x) = S "none" ∨
      lowerS (pyStrip x) = []
  · have hx : sanitize_text x = [] := by
      simp only [sanitize_text]
      rw [if_pos hsent]
    rw [hx]
    decide
  · have hs1ne : pyStrip x ≠ [] := by
      intro h0
      exact hsent (Or.inr (Or.inr (by rw [h0]; rfl)))
    obtain ⟨c0, cs0, hs1⟩ : ∃ c0 cs0, pyStrip x = c0 :: cs0 := by
      rcases hxx : pyStrip x with _ | ⟨a, b⟩
      · exact absurd hxx hs1ne
      · exact ⟨a, b, rfl⟩
    have hq1 : '"' ∉ pyStrip x := fun hc => hq (mem_pyStrip _ _ hc)
    have hc0ws : isSpaceB c0 = false := (pyStrip_noEdgeWs x).1 c0 (by rw [hs1]; rfl)
    have h3head : (collapseWs (pyStrip x)).head? = some c0 := by
      rw [hs1]
      exact cw_head_keep c0 cs0 hc0ws
    obtain ⟨t3, h3eq⟩ : ∃ t3, collapseWs (pyStrip x) = c0 :: t3 := by
      rcases hzz : collapseWs (pyStrip x) with _ | ⟨a, b⟩
      · rw [hzz] at h3head
        cases h3head
      · rw [hzz] at h3head
        injection h3head with h3head
        exact ⟨b, by rw [h3head]⟩
    have h3ww : List.Chain' Rww (collapseWs (pyStrip x)) := (cw_out _ false).1
    have h3sp : WsIsSp (collapseWs (pyStrip x)) := (cw_out _ false).2
    have hq3 : '"' ∉ collapseWs (pyStrip x) := by
      intro hc
      rcases cw_mem _ false _ hc with h | h
      · exact hq1 h
      · exact absurd h (by decide)
    have hy : sanitize_text x =
        (if (toUpperC c0 :: t3) ≠ [] ∧ endsWithPunct (toUpperC c0 :: t3) = false
         then (toUpperC c0 :: t3) ++ ['.'] else (toUpperC c0 :: t3)) := by
      simp only [sanitize_text]
      rw [if_neg hsent, stripQuotes_id _ hq1, h3eq]
    rw [h3eq] at h3ww h3sp hq3
    have hs4ww : List.Chain' Rww (toUpperC c0 :: t3) := by
      refine List.chain'_cons'.2 ⟨?_, (List.chain'_cons'.1 h3ww).2⟩
      intro y hyy hws
      rw [isSpaceB_toUpperC] at hws
      exact (List.chain'_cons'.1 h3ww).1 y hyy hws
    have hs4sp : WsIsSp (toUpperC c0 :: t3) := by
      intro d hd hws
      rcases List.mem_cons.1 hd with h | h
      · subst h
        rw [isSpaceB_toUpperC, hc0ws] at hws
        cases hws
      · exact h3sp d (List.mem_cons_of_mem _ h) hws
    have hs4q : '"' ∉ (toUpperC c0 :: t3) := by
      intro hc
      rcases List.mem_cons.1 hc with h | h
      · have hc0 : c0 = '"' := toUpperC_quote c0 h.symm
        exact hq3 (hc0 ▸ List.mem_cons_self _ _)
      · exact hq3 (List.mem_cons_of_mem _ h)
    have hs4hw : isSpaceB (toUpperC c0) = false := by
      rw [isSpaceB_toUpperC]
      exact hc0ws
    by_cases happ : endsWithPunct (toUpperC c0 :: t3) = false
    · have hy2 : sanitize_text x = (toUpperC c0 :: t3) ++ ['.'] := by
        rw [hy, if_pos ⟨by simp, happ⟩]
      rw [hy2]
      refine sanitize_fixpoint _ ⟨?_, ?_⟩ ?_ ?_ ?_ ?_ ?_
      · intro c hc
        rw [List.cons_append] at hc
        injection hc with hc
        subst hc
        exact hs4hw
      · intro c hc
        rw [List.getLast?_concat] at hc
        injection hc with hc
        subst hc
        decide
      · intro hc
        rcases List.mem_append.1 hc with h | h
        · exact hs4q h
        · simp at h
      · rw [List.chain'_append]
        refine ⟨hs4ww, List.chain'_singleton _, ?_⟩
        intro a _ b hb
        injection hb with hb
        subst hb
        intro _
        decide
      · intro d hd hws
        rcases List.mem_append.1 hd with h | h
        · exact hs4sp d h hws
        · simp at h
          subst h
          cases hws
      · exact ⟨toUpperC c0, t3 ++ ['.'], by rw [List.cons_append], toUpperC_idem c0⟩
      · rw [endsWithPunct, List.getLast?_concat]
        decide
    · have hp : endsWithPunct (toUpperC c0 :: t3) = true := by
        rcases h : endsWithPunct (toUpperC c0 :: t3) with _ | _
        · exact absurd h happ
        · rfl
      have hy2 : sanitize_text x = toUpperC c0 :: t3 := by
        rw [hy, if_neg (fun hc => happ hc.2)]
      rw [hy2]
      refine sanitize_fixpoint _ ⟨?_, ?_⟩ hs4q hs4ww hs4sp
        ⟨toUpperC c0, t3, rfl, toUpperC_idem c0⟩ hp
      · intro c hc
        injection hc with hc
        subst hc
        exact hs4hw
      · intro c hc
        obtain ⟨p, hp2, hpp⟩ := (endsWithPunct_iff _).1 hp
        rw [hp2] at hc
        injection hc with hc
        subst hc
        exact isPunctB_not_space _ hpp

/-- Witness for C2: a quote-free string on which double application agrees. -/
theorem C2_witness :
    ('"' ∉ S "hello   world") ∧
    sanitize_text (sanitize_text (S "hello   world")) = sanitize_text (S "hello   world") :=
  ⟨by decide, C2_sanitize_idempotent_quote_free (S "hello   world") (by decide)⟩

/-- Counterexample to C2 as stated: on the input `"\" a"` the quote
stripping exposes a leading space, so the first pass returns `" a."` while
the second pass strips and capitalizes it to `"A."` — `sanitize_text` is
not idempotent on all strings. -/
theorem C2_counterexample :
    sanitize_text (sanitize_text (S "\" a")) ≠ sanitize_text (S "\" a") ∧
    sanitize_text (S "\" a") = S " a." ∧
    sanitize_text (sanitize_text (S "\" a")) = S "A." := by
  refine ⟨by decide, by decide, by decide⟩

/-! ## C7: quality scrubber -/

theorem isPreB_iff (n : Str) : ∀ h : Str, isPreB n h = true ↔ ∃ v, h = n ++ v := by
  induction n with
  | nil =>
    intro h
    simp [isPreB]
  | cons a as ih =>
    intro h
    cases h with
    | nil =>
      simp [isPreB]
    | cons b bs =>
      rw [isPreB]
      simp only [Bool.and_eq_true, decide_eq_true_eq]
      constructor
      · rintro ⟨rfl, hpre⟩
        obtain ⟨v, rfl⟩ := (ih bs).1 hpre
        exact ⟨v, rfl⟩
      · rintro ⟨v, hv⟩
        injection hv with h1 h2
        subst h1
        exact ⟨rfl, (ih bs).2 ⟨v, h2⟩⟩

theorem subB_iff (n : Str) : ∀ h : Str, subB n h = true ↔ ∃ u v, h = u ++ n ++ v := by
  intro h
  induction h with
  | nil =>
    simp only [subB]
    constructor
    · intro hn
      refine ⟨[], [], ?_⟩
      have : n = [] := by simpa using hn
      rw [this]
      rfl
    · rintro ⟨u, v, huv⟩
      rcases u with _ | _
      · rcases n with _ | _
        · simp
        · cases huv
      · cases huv
  | cons c cs ih =>
    rw [subB]
    simp only [Bool.or_eq_true]
    constructor
    · rintro (hpre | hsub)
      · obtain ⟨v, hv⟩ := (isPreB_iff n (c :: cs)).1 hpre
        exact ⟨[], v, by simpa using hv⟩
      · obtain ⟨u, v, huv⟩ := ih.1 hsub
        exact ⟨c :: u, v, by rw [huv]; rfl⟩
    · rintro ⟨u, v, huv⟩
      rcases u with _ | ⟨b, bs⟩
      · left
        exact (isPreB_iff n (c :: cs)).2 ⟨v, by simpa using huv⟩
      · right
        injection huv with h1 h2
        exact ih.2 ⟨bs, v, h2⟩

theorem subB_nil_of_ne (n : Str) (h : n ≠ []) : subB n [] = false := by
  rw [subB]
  simpa using h

theorem subB_mono (n h h' : Str) (hinf : ∃ u v, h' = u ++ h ++ v)
    (hs : subB n h = true) : subB n h' = true := by
  obtain ⟨u1, v1, rfl⟩ := hinf
  obtain ⟨u2, v2, rfl⟩ := (subB_iff n h).1 hs
  refine (subB_iff n _).2 ⟨u1 ++ u2, v2 ++ v1, ?_⟩
  simp

theorem ssGo_some_eq (cur : Str) (c : Char) (cs : Str) :
    ssGo (some cur) (c :: cs) =
      if (isSpaceB c && headPunctB cur) = true then cur.reverse :: ssGo none cs
      else ssGo (some (c :: cur)) cs := rfl

theorem ssGo_none_eq (c : Char) (cs : Str) :
    ssGo none (c :: cs) = if isSpaceB c = true then ssGo none cs else ssGo (some [c]) cs := rfl

theorem ssGo_ne_nil : ∀ (l : Str) (mode : Option Str), ssGo mode l ≠ [] := by
  intro l
  induction l with
  | nil =>
    intro mode
    cases mode <;> simp [ssGo]
  | cons c cs ih =>
    intro mode
    cases mode with
    | none =>
      rw [ssGo_none_eq]
      by_cases hc : isSpaceB c = true
      · rw [if_pos hc]
        exact ih _
      · rw [if_neg hc]
        exact ih _
    | some cur =>
      rw [ssGo_some_eq]
      by_cases hc : (isSpaceB c && headPunctB cur) = true
      · rw [if_pos hc]
        simp
      · rw [if_neg hc]
        exact ih _

theorem exceptLast_nil (Q : Str → Prop) : ExceptLast Q [] := by
  intro p hp
  cases hp

theorem exceptLast_cons (Q : Str → Prop) (a : Str) (L : List Str) (ha : Q a)
    (hL : ExceptLast Q L) : ExceptLast Q (a :: L) := by
  intro p hp
  rcases L with _ | ⟨b, bs⟩
  · cases hp
  · rw [List.dropLast_cons₂] at hp
    rcases List.mem_cons.1 hp with h | h
    · subst h
      exact ha
    · exact hL p h

theorem exceptLast_of_cons (Q : Str → Prop) (a : Str) (L : List Str)
    (h : ExceptLast Q (a :: L)) : ExceptLast Q L := by
  intro p hp
  rcases L with _ | ⟨b, bs⟩
  · cases hp
  · exact h p (by rw [List.dropLast_cons₂]; exact List.mem_cons_of_mem _ hp)

theorem ssGo_pieces : ∀ (l : Str),
    (∀ cur, List.Chain' Rpw cur.reverse →
      ((∀ p ∈ ssGo (some cur) l, List.Chain' Rpw p) ∧
        ExceptLast EndsPunctP (ssGo (some cur) l))) ∧
    ((∀ p ∈ ssGo none l, List.Chain' Rpw p) ∧ ExceptLast EndsPunctP (ssGo none l)) := by
  intro l
  induction l with
  | nil =>
    constructor
    · intro cur hcur
      constructor
      · intro p hp
        have : p = cur.reverse := by simpa [ssGo] using hp
        subst this
        exact hcur
      · intro p hp
        simp [ssGo] at hp
    · constructor
      · intro p hp
        have : p = [] := by simpa [ssGo] using hp
        subst this
        exact List.chain'_nil
      · intro p hp
        simp [ssGo] at hp
  | cons c cs ih =>
    constructor
    · intro cur hcur
      rw [ssGo_some_eq]
      by_cases hc : (isSpaceB c && headPunctB cur) = true
      · rw [if_pos hc]
        have hcc := Bool.and_eq_true .. ▸ hc
        constructor
        · intro q hq
          rcases List.mem_cons.1 hq with h | h
          · subst h
            exact hcur
          · exact (ih.2).1 q h
        · refine exceptLast_cons _ _ _ ?_ (ih.2).2
          rcases cur with _ | ⟨p, cur'⟩
          · cases hcc.2
          · refine ⟨p, ?_, hcc.2⟩
            rw [List.getLast?_reverse]
            rfl
      · rw [if_neg hc]
        refine ih.1 (c :: cur) ?_
        rw [List.reverse_cons, List.chain'_append]
        refine ⟨hcur, List.chain'_singleton _, ?_⟩
        intro a ha b hb hpa
        injection hb with hb
        subst hb
        rcases cur with _ | ⟨p, cur'⟩
        · cases ha
        · rw [List.getLast?_reverse] at ha
          injection ha with ha
          subst ha
          rcases hws : isSpaceB c with _ | _
          · rfl
          · exfalso
            apply hc
            rw [hws]
            simp [headPunctB, hpa]
    · rw [ssGo_none_eq]
      by_cases hc : isSpaceB c = true
      · rw [if_pos hc]
        exact ih.2
      · rw [if_neg hc]
        exact ih.1 [c] (List.chain'_singleton _)

theorem intercalate_cons₂ (sep x : Str) (L : List Str) (h : L ≠ []) :
    List.intercalate sep (x :: L) = x ++ sep ++ List.intercalate sep L := by
  rcases L with _ | ⟨y, ys⟩
  · exact absurd rfl h
  · simp [List.intercalate, List.intersperse]

theorem ssGo_through : ∀ (p cur rest : Str), List.Chain' Rpw (cur.reverse ++ p) →
    ssGo (some cur) (p ++ rest) = ssGo (some (p.reverse ++ cur)) rest := by
  intro p
  induction p with
  | nil =>
    intro cur rest _
    simp
  | cons c p' ih =>
    intro cur rest h
    rw [List.cons_append, ssGo_some_eq]
    have hcond : (isSpaceB c && headPunctB cur) = false := by
      rcases cur with _ | ⟨d, cur'⟩
      · simp [headPunctB]
      · have hj := (List.chain'_append.1 h).2.2
        have hd : ((d :: cur').reverse).getLast? = some d := by
          rw [List.getLast?_reverse]
          rfl
        have hrdc : Rpw d c := hj d hd c rfl
        rcases hpd : isPunctB d with _ | _
        · simp [headPunctB, hpd]
        · simp [headPunctB, hpd, hrdc hpd]
    rw [if_neg (by simp [hcond])]
    have h' : List.Chain' Rpw ((c :: cur).reverse ++ p') := by
      rw [List.reverse_cons, List.append_assoc]
      simpa using h
    rw [ih (c :: cur) rest h']
    simp

theorem sentSplit_eq_ssGo_none (l : Str)
    (h : ∀ c, l.head? = some c → isSpaceB c = false) : sentSplit l = ssGo none l := by
  rcases l with _ | ⟨c, cs⟩
  · rfl
  · rw [sentSplit, ssGo_some_eq, ssGo_none_eq]
    rw [if_neg (by simp [headPunctB]), if_neg (by simp [h c rfl])]

theorem ssGo_resplit : ∀ (L : List Str), L ≠ [] →
    (∀ p ∈ L, p ≠ []) → (∀ p ∈ L, NoEdgeWs p) → (∀ p ∈ L, List.Chain' Rpw p) →
    ExceptLast EndsPunctP L →
    ssGo none (List.intercalate (S " ") L) = L := by
  intro L
  induction L with
  | nil => intro h; exact absurd rfl h
  | cons q L' ih =>
    intro _ hne hedge hchain hel
    have hq : q ≠ [] := hne q (List.mem_cons_self q L')
    rcases hqe : q with _ | ⟨c, q'⟩
    · exact absurd hqe hq
    have hcw : isSpaceB c = false := by
      have := (hedge q (List.mem_cons_self q L')).1
      rw [hqe] at this
      exact this c rfl
    have hchq : List.Chain' Rpw (c :: q') := by
      have := hchain q (List.mem_cons_self q L')
      rwa [hqe] at this
    rcases L' with _ | ⟨r, L''⟩
    · have hsingle : List.intercalate (S " ") [c :: q'] = c :: q' := by
        simp [List.intercalate]
      rw [hsingle, ssGo_none_eq, if_neg (by simp [hcw])]
      have := ssGo_through q' [c] [] (by simpa using hchq)
      rw [List.append_nil] at this
      rw [this]
      simp [ssGo]
    · have hinter : List.intercalate (S " ") ((c :: q') :: r :: L'') =
          c :: (q' ++ ' ' :: List.intercalate (S " ") (r :: L'')) := by
        rw [intercalate_cons₂ (S " ") (c :: q') (r :: L'') (by simp)]
        simp [S]
      rw [hinter, ssGo_none_eq, if_neg (by simp [hcw])]
      have hthru := ssGo_through q' [c] (' ' :: List.intercalate (S " ") (r :: L'')) (by simpa using hchq)
      rw [hthru, ssGo_some_eq]
      have hpq : EndsPunctP (c :: q') := by
        have : q ∈ (q :: r :: L'').dropLast := by
          rw [List.dropLast_cons₂]
          exact List.mem_cons_self q _
        have := hel q this
        rwa [hqe] at this
      obtain ⟨e, hlast, hpe⟩ := hpq
      have hhead : (q'.reverse ++ [c]).head? = some e := by
        have h1 : q'.reverse ++ [c] = (c :: q').reverse := by simp
        rw [h1, List.head?_reverse]
        exact hlast
      have hhp : headPunctB (q'.reverse ++ [c]) = true := by
        rcases hrv : q'.reverse ++ [c] with _ | ⟨d, ds⟩
        · rw [hrv] at hhead; cases hhead
        · rw [hrv] at hhead
          injection hhead with hd
          subst hd
          simpa [headPunctB] using hpe
      rw [if_pos (by rw [hhp]; decide)]
      have hrec := ih (by simp)
        (fun p hp => hne p (List.mem_cons_of_mem _ hp))
        (fun p hp => hedge p (List.mem_cons_of_mem _ hp))
        (fun p hp => hchain p (List.mem_cons_of_mem _ hp))
        (exceptLast_of_cons _ q _ hel)
      rw [hrec]
      simp

theorem exceptLast_filter (Q : Str → Prop) (f : Str → Bool) :
    ∀ L : List Str, ExceptLast Q L → ExceptLast Q (L.filter f) := by
  intro L
  induction L with
  | nil =>
    intro h
    simpa using h
  | cons a L' ih =>
    intro h
    have hL' : ExceptLast Q L' := exceptLast_of_cons Q a L' h
    rw [List.filter_cons]
    by_cases hf : f a = true
    · rw [if_pos hf]
      rcases hfl : L'.filter f with _ | ⟨b, bs⟩
      · intro p hp
        simp at hp
      · refine exceptLast_cons Q a _ ?_ (hfl ▸ ih hL')
        rcases L' with _ | ⟨x, xs⟩
        · simp at hfl
        · exact h a (by rw [List.dropLast_cons₂]; exact List.mem_cons_self a _)
    · rw [if_neg hf]
      exact ih hL'

theorem exceptLast_map (Q : Str → Prop) (g : Str → Str) (hg : ∀ p, Q p → Q (g p)) :
    ∀ L : List Str, ExceptLast Q L → ExceptLast Q (L.map g) := by
  intro L h p hp
  rw [← List.map_dropLast] at hp
  obtain ⟨s, hs, rfl⟩ := List.mem_map.1 hp
  exact hg s (h s hs)

theorem endsPunct_pyStrip (p : Str) (h : EndsPunctP p) : EndsPunctP (pyStrip p) := by
  obtain ⟨e, hlast, hpe⟩ := h
  have hew : isSpaceB e = false := isPunctB_not_space e hpe
  have hlne : lstrip p ≠ [] := by
    intro hl
    rw [lstrip, List.dropWhile_eq_nil_iff] at hl
    have hmem : e ∈ p := by
      have : p ≠ [] := by intro hn; rw [hn] at hlast; cases hlast
      have := List.getLast?_eq_getLast p this ▸ hlast
      injection this with he
      exact he ▸ List.getLast_mem _
    rw [hl e hmem] at hew
    cases hew
  have hll : (lstrip p).getLast? = some e := by
    obtain ⟨t, ht⟩ := lstrip_suffix p
    have h2 : List.getLast? (t ++ lstrip p) = some e := by rw [← ht]; exact hlast
    rwa [List.getLast?_append_of_ne_nil t hlne] at h2
  have hrev : (lstrip p).reverse.head? = some e := by
    rw [List.head?_reverse]
    exact hll
  have hrs : rstrip (lstrip p) = lstrip p := by
    rw [rstrip, dropWhile_id_of_head isSpaceB _ ?_, List.reverse_reverse]
    intro d hd
    rw [hrev] at hd
    injection hd with hd
    exact hd ▸ hew
  exact ⟨e, by rw [pyStrip, hrs]; exact hll, hpe⟩

theorem sentHasIssue_pyStrip (issues : List Str) (s : Str)
    (h : sentHasIssue issues s = false) : sentHasIssue issues (pyStrip s) = false := by
  rw [sentHasIssue, List.any_eq_false]
  intro tok htok
  simp only [Bool.not_eq_true]
  rcases hsub : subB tok (lowerS (pyStrip s)) with _ | _
  · rfl
  · exfalso
    obtain ⟨t, u, he⟩ := pyStrip_split s
    have hinf : ∃ a b, lowerS s = a ++ lowerS (pyStrip s) ++ b := by
      refine ⟨lowerS t, lowerS u, ?_⟩
      conv_lhs => rw [he]
      simp [lowerS]
    have hx := subB_mono tok _ _ hinf hsub
    rw [sentHasIssue, List.any_eq_false] at h
    have := h tok htok
    simp only [Bool.not_eq_true] at this
    rw [hx] at this
    cases this

theorem scrub_resplit (issues : List Str) (sents : List Str)
    (hch : ∀ p ∈ sents, List.Chain' Rpw p)
    (hel : ExceptLast EndsPunctP sents) :
    ∀ sent ∈ sentSplit (List.intercalate (S " ")
        (((sents.filter (fun s0 => !sentHasIssue issues s0)).map pyStrip).filter
          (fun s0 => !s0.isEmpty))),
      sent = [] ∨ sentHasIssue issues sent = false := by
  intro sent hsent
  by_cases hL0 : ((sents.filter (fun s0 => !sentHasIssue issues s0)).map pyStrip).filter
      (fun s0 => !s0.isEmpty) = []
  · left
    rw [hL0] at hsent
    have h0 : List.intercalate (S " ") ([] : List Str) = [] := by simp [List.intercalate]
    rw [h0] at hsent
    simpa [sentSplit, ssGo] using hsent
  · right
    have hne' : ∀ p ∈ ((sents.filter (fun s0 => !sentHasIssue issues s0)).map pyStrip).filter
        (fun s0 => !s0.isEmpty), p ≠ [] := by
      intro p hp
      have h2 := (List.mem_filter.1 hp).2
      simpa using h2
    have hmap : ∀ p ∈ ((sents.filter (fun s0 => !sentHasIssue issues s0)).map pyStrip).filter
        (fun s0 => !s0.isEmpty),
        ∃ s0 ∈ sents, sentHasIssue issues s0 = false ∧ p = pyStrip s0 := by
      intro p hp
      have h1 := (List.mem_filter.1 hp).1
      obtain ⟨s0, hs0, rfl⟩ := List.mem_map.1 h1
      have h2 := List.mem_filter.1 hs0
      refine ⟨s0, h2.1, ?_, rfl⟩
      simpa using h2.2
    have hedge' : ∀ p ∈ ((sents.filter (fun s0 => !sentHasIssue issues s0)).map pyStrip).filter
        (fun s0 => !s0.isEmpty), NoEdgeWs p := by
      intro p hp
      obtain ⟨s0, _, _, rfl⟩ := hmap p hp
      exact pyStrip_noEdgeWs s0
    have hchain' : ∀ p ∈ ((sents.filter (fun s0 => !sentHasIssue issues s0)).map pyStrip).filter
        (fun s0 => !s0.isEmpty), List.Chain' Rpw p := by
      intro p hp
      obtain ⟨s0, hs0, _, rfl⟩ := hmap p hp
      exact chain'_pyStrip _ s0 (hch s0 hs0)
    have hexc : ExceptLast EndsPunctP
        (((sents.filter (fun s0 => !sentHasIssue issues s0)).map pyStrip).filter
          (fun s0 => !s0.isEmpty)) :=
      exceptLast_filter _ _ _
        (exceptLast_map _ pyStrip endsPunct_pyStrip _
          (exceptLast_filter _ _ _ hel))
    have hhead : ∀ c, (List.intercalate (S " ")
        (((sents.filter (fun s0 => !sentHasIssue issues s0)).map pyStrip).filter
          (fun s0 => !s0.isEmpty))).head? = some c → isSpaceB c = false := by
      intro c hc
      rcases hLe : ((sents.filter (fun s0 => !sentHasIssue issues s0)).map pyStrip).filter
          (fun s0 => !s0.isEmpty) with _ | ⟨q, L'⟩
      · exact absurd hLe hL0
      · have hqmem : q ∈ ((sents.filter (fun s0 => !sentHasIssue issues s0)).map pyStrip).filter
            (fun s0 => !s0.isEmpty) := hLe ▸ List.mem_cons_self q L'
        have hqne : q ≠ [] := hne' q hqmem
        have hqh : (List.intercalate (S " ") (q :: L')).head? = q.head? := by
          rcases L' with _ | ⟨r, L''⟩
          · simp [List.intercalate]
          · rw [intercalate_cons₂ (S " ") q (r :: L'') (by simp), List.append_assoc]
            exact List.head?_append_of_ne_nil _ hqne
        rw [hLe, hqh] at hc
        exact (hedge' q hqmem).1 c hc
    have hre : sentSplit (List.intercalate (S " ")
        (((sents.filter (fun s0 => !sentHasIssue issues s0)).map pyStrip).filter
          (fun s0 => !s0.isEmpty))) =
        ((sents.filter (fun s0 => !sentHasIssue issues s0)).map pyStrip).filter
          (fun s0 => !s0.isEmpty) := by
      rw [sentSplit_eq_ssGo_none _ hhead]
      exact ssGo_resplit _ hL0 hne' hedge' hchain' hexc
    rw [hre] at hsent
    obtain ⟨s0, _, hclean, rfl⟩ := hmap sent hsent
    exact sentHasIssue_pyStrip issues s0 hclean

/-- **C7.**  For lowercase, nonempty issue tokens — as the concrete
`ISSUE_TERMS` set is — `scrub_quality_language` leaves no issue token (as a
case-insensitive substring) inside any sentence of its output text, and its
returned flag is true exactly when some sentence of the input contains an
issue token.  (The list equality of the claim fails for general issue sets:
the source lowercases only the sentence, `tok in sent.lower()`, never the
token, so an issue token with an uppercase letter never matches; see the
counterexample.) -/
theorem C7_scrubber_ci_drop (issues : List Str) (text : Str)
    (hlow : ∀ t ∈ issues, lowerS t = t) (hne : ∀ t ∈ issues, t ≠ []) :
    (∀ sent ∈ sentSplit (scrub_quality_language issues text).1, ∀ t ∈ issues,
        subB (lowerS t) (lowerS sent) = false) ∧
    ((scrub_quality_language issues text).2 = true ↔
      ∃ sent ∈ sentSplit text, sentHasIssue issues sent = true) := by
  by_cases htext : text = []
  · subst htext
    simp only [scrub_quality_language, if_pos rfl]
    constructor
    · intro sent hsent t ht
      have hs : sent = [] := by simpa [sentSplit, ssGo] using hsent
      subst hs
      rw [hlow t ht]
      exact subB_nil_of_ne t (hne t ht)
    · constructor
      · intro h0
        exact (Bool.false_ne_true h0).elim
      · rintro ⟨sent, hsent, hiss⟩
        have hs : sent = [] := by simpa [sentSplit, ssGo] using hsent
        subst hs
        rw [sentHasIssue, List.any_eq_true] at hiss
        obtain ⟨t, ht, hsub⟩ := hiss
        have hn : subB t (lowerS ([] : Str)) = false := subB_nil_of_ne t (hne t ht)
        rw [hn] at hsub
        exact (Bool.false_ne_true hsub).elim
  · simp only [scrub_quality_language, if_neg htext]
    constructor
    · intro sent hsent t ht
      have hch : ∀ p ∈ sentSplit text, List.Chain' Rpw p :=
        ((ssGo_pieces text).1 [] List.chain'_nil).1
      have hel : ExceptLast EndsPunctP (sentSplit text) :=
        ((ssGo_pieces text).1 [] List.chain'_nil).2
      rcases scrub_resplit issues (sentSplit text) hch hel sent hsent with h0 | h0
      · subst h0
        rw [hlow t ht]
        exact subB_nil_of_ne t (hne t ht)
      · rw [sentHasIssue, List.any_eq_false] at h0
        have h1 := h0 t ht
        simp only [Bool.not_eq_true] at h1
        rw [hlow t ht]
        exact h1
    · rw [List.any_eq_true]

theorem C7_witness :
    (∀ sent ∈ sentSplit (scrub_quality_language Prep.ISSUE_TERMS
        (S "A nice view. Some blurry mess! The end.")).1,
      ∀ t ∈ Prep.ISSUE_TERMS, subB (lowerS t) (lowerS sent) = false) ∧
    ((scrub_quality_language Prep.ISSUE_TERMS
        (S "A nice view. Some blurry mess! The end.")).2 = true ↔
      ∃ sent ∈ sentSplit (S "A nice view. Some blurry mess! The end."),
        sentHasIssue Prep.ISSUE_TERMS sent = true) :=
  C7_scrubber_ci_drop Prep.ISSUE_TERMS (S "A nice view. Some blurry mess! The end.")
    (by decide) (by decide)

theorem C7_counterexample :
    scrub_quality_language [S "BLUR"] (S "blurry mess.") = (S "blurry mess.", false) ∧
    subB (lowerS (S "BLUR")) (lowerS (S "blurry mess.")) = true :=
  ⟨by decide, by decide⟩
